import Mathlib

/-!
Verification of the query-compilation and authorization-scoping engine of
peregrine (files peregrine/resources/submission/graphql/node.py and
peregrine/resources/submission/graphql/util.py), as a shallow embedding.

Modelling conventions:
  * JSONB property values are `JVal`; `astext` is the Postgres text
    rendering of a jsonb value (arrays print like ["a", "b"], strings
    print raw).
  * A SQLAlchemy/psqlgraph query is `Query`: a primary entity class, a
    current joinpoint class (psqlgraph `entity()` follows joins and is
    restored by `reset_joinpoint`), row contexts (the base row of the
    primary entity plus rows joined by `path`), and pending ORDER BY,
    LIMIT and OFFSET.  `Query.exec` evaluates with SQL semantics: sort,
    then skip OFFSET rows, then return at most LIMIT rows.
  * Python exceptions are the `Except PyError` monad.
  * Python classes that appear in identity comparisons are `PyClass`:
    the abstract supertype `psqlgraph.Node`, concrete node classes by
    label, and the graphene `Node` interface class that the module-level
    name `Node` in node.py refers to (it is a distinct object from every
    query entity).
-/

namespace Peregrine

/-- A jsonb value as stored in a node property bag.  List properties in
the dictionary hold lists of strings (node.py treats every array as an
array of strings, see lookup_graphql_type). -/
inductive JVal where
  | jstr (s : String)
  | jbool (b : Bool)
  | jnum (n : Int)
  | jlist (xs : List String)
deriving DecidableEq

/-- JSON escaping of one character inside a double-quoted JSON string. -/
def escChar (c : Char) : List Char :=
  if c = '"' then ['\\', '"']
  else if c = '\\' then ['\\', '\\']
  else [c]

/-- A JSON-quoted string, at the character level. -/
def jsonQuoteChars (s : List Char) : List Char :=
  '"' :: (s.map escChar).flatten ++ ['"']

/-- Body of the jsonb text rendering of an array of strings: elements
quoted and separated by a comma and a space, as Postgres prints jsonb. -/
def renderBody : List (List Char) → List Char
  | [] => []
  | [x] => jsonQuoteChars x
  | x :: y :: rest => jsonQuoteChars x ++ ',' :: ' ' :: renderBody (y :: rest)

/-- Postgres text rendering of a jsonb array of strings. -/
def renderJsonList (xs : List String) : String :=
  ⟨'[' :: renderBody (xs.map String.data) ++ [']']⟩

/-- Postgres `->> / astext` rendering of a jsonb value. -/
def astext : JVal → String
  | .jstr s => s
  | .jbool true => "true"
  | .jbool false => "false"
  | .jnum n => toString n
  | .jlist xs => renderJsonList xs

/-- A stored graph node row: stable id, type label, property bag. -/
structure PNode where
  node_id : String
  label : String
  props : List (String × JVal)
deriving DecidableEq

/-- Property lookup in the JSONB bag (missing key is SQL NULL). -/
def PNode.getProp (r : PNode) (k : String) : Option JVal :=
  (r.props.find? (fun p => p.fst == k)).map Prod.snd

/-- The Python class objects that the source compares with `is` / `==`:
the abstract `psqlgraph.Node` supertype, a concrete node class
identified by its label, and the graphene `Node` interface class (the
value of the module-level name `Node` in node.py). -/
inductive PyClass where
  | node
  | cls (label : String)
  | gNode
deriving DecidableEq

/-- Scalar/list kind of a dictionary property
(`cls.__pg_properties__[key][0]` in the source). -/
inductive FieldType where
  | strT
  | intT
  | boolT
  | listT
deriving DecidableEq

/-- Static schema data of one node class that the source reads:
`__pg_properties__`, `hasattr(cls, "project_id")`, `_pg_links`
(link name to destination type), `_pg_edges`, and the `_related_*`
shortcut attributes maintained by the caching layer. -/
structure ClassMeta where
  label : String
  pgProps : List (String × FieldType)
  hasProjectId : Bool
  pgLinks : List (String × String)
  pgEdges : List (String × String)
  shortcuts : List (String × String)
deriving DecidableEq

abbrev Schema := List ClassMeta

/-- Metadata of the abstract `psqlgraph.Node` base: label "node", no
declared properties, no stored `project_id` attribute, no links. -/
def nodeBaseMeta : ClassMeta :=
  { label := "node", pgProps := [], hasProjectId := false,
    pgLinks := [], pgEdges := [], shortcuts := [] }

def emptyMeta : ClassMeta :=
  { label := "?", pgProps := [], hasProjectId := false,
    pgLinks := [], pgEdges := [], shortcuts := [] }

def metaOf (sch : Schema) : PyClass → ClassMeta
  | .node => nodeBaseMeta
  | .cls l => (sch.find? (fun m => m.label == l)).getD { emptyMeta with label := l }
  | .gNode => emptyMeta

/-- One typed directed edge of the data graph (also used for the
precomputed `_related_*` shortcut edges). -/
structure GEdge where
  src : String
  link : String
  dst : String
deriving DecidableEq

/-- The stored property graph. -/
structure DB where
  nodes : List PNode
  edges : List GEdge
deriving DecidableEq

/-- One result row context: the base row of the primary entity plus the
rows joined onto it by `path`, most recent join first. -/
structure Ctx where
  base : PNode
  frames : List (PyClass × PNode)
deriving DecidableEq

/-- An ORDER BY key as data (node id, or a property rendered as text). -/
inductive OrdKey where
  | byNodeId (desc : Bool)
  | byProp (key : String) (desc : Bool)
deriving DecidableEq

def OrdKey.desc : OrdKey → Bool
  | .byNodeId d => d
  | .byProp _ d => d

/-- Python exceptions raised by the modelled code. -/
inductive PyError where
  | runtimeError
  | indexError
  | typeError
  | attributeError
  | valueError
  | nonTermination
deriving DecidableEq

/-- A compiled query: primary entity, joinpoint entity, row contexts,
pending LIMIT/OFFSET and ORDER BY. -/
structure Query where
  primary : PyClass
  joinClass : PyClass
  rows : List Ctx
  qlimit : Option Nat
  qoffset : Nat
  ordering : List OrdKey
deriving DecidableEq

def Query.filter (q : Query) (p : Ctx → Bool) : Query :=
  { q with rows := q.rows.filter p }

def Query.bases (q : Query) : List PNode :=
  q.rows.map (·.base)

def Query.limitTo (q : Query) (k : Nat) : Query :=
  { q with qlimit := some k }

/-- `q.limit(None)` in SQLAlchemy clears the pending limit. -/
def Query.limitNone (q : Query) : Query :=
  { q with qlimit := none }

def Query.offsetTo (q : Query) (m : Nat) : Query :=
  { q with qoffset := m }

def Query.orderByKey (q : Query) (k : OrdKey) : Query :=
  { q with ordering := q.ordering ++ [k] }

def Query.resetJoinpoint (q : Query) : Query :=
  { q with joinClass := q.primary }

/-- Resolve the row a class-qualified column expression refers to inside
one row context: the primary class resolves to the base row, any other
class to its most recently joined frame. -/
def Ctx.resolveCls (c : Ctx) (primary : PyClass) (cl : PyClass) : Option PNode :=
  if cl = primary then some c.base
  else (c.frames.find? (fun f => f.fst == cl)).map Prod.snd

def ordValOf (k : OrdKey) (c : Ctx) : String :=
  match k with
  | .byNodeId _ => c.base.node_id
  | .byProp key _ => ((c.base.getProp key).map astext).getD ""

def ordKeyLe : List OrdKey → Ctx → Ctx → Bool
  | [], _, _ => true
  | k :: ks, a, b =>
    let va := ordValOf k a
    let vb := ordValOf k b
    if va = vb then ordKeyLe ks a b
    else if k.desc then decide (vb < va) else decide (va < vb)

def Query.sortedRows (q : Query) : List Ctx :=
  if q.ordering.isEmpty then q.rows
  else q.rows.insertionSort (fun a b => ordKeyLe q.ordering a b = true)

/-- Execute a query with SQL semantics: ORDER BY, then skip OFFSET rows,
then return at most LIMIT rows; the selected columns are those of the
primary entity (the base row). -/
def Query.exec (q : Query) : List PNode :=
  let bs := q.sortedRows.map (·.base)
  let off := bs.drop q.qoffset
  match q.qlimit with
  | none => off
  | some k => off.take k

def mkCtxRows (ns : List PNode) : List Ctx :=
  ns.map (fun n => { base := n, frames := [] })

/-- SQL UNION of two queries over the same entity: both sides are
materialized, concatenated and de-duplicated; inner ordering and
pagination state is consumed and the outer query starts fresh. -/
def Query.union (q1 q2 : Query) : Query :=
  { primary := q1.primary, joinClass := q1.primary,
    rows := mkCtxRows ((q1.exec ++ q2.exec).dedup),
    qlimit := none, qoffset := 0, ordering := [] }

/-- SQL EXCEPT: distinct rows of the left side that do not occur in the
right side. -/
def Query.exceptQ (q1 q2 : Query) : Query :=
  { primary := q1.primary, joinClass := q1.primary,
    rows := mkCtxRows (q1.exec.dedup.filter (fun r => decide (¬ r ∈ q2.exec))),
    qlimit := none, qoffset := 0, ordering := [] }

/-- `capp.db.nodes(cls).select_entity_from(sa.union_all(subqs))`: a fresh
query over the entity reading from the concatenation (UNION ALL keeps
duplicates) of the materialized subqueries. -/
def selectEntityFrom (primary : PyClass) (subqs : List Query) : Query :=
  { primary := primary, joinClass := primary,
    rows := mkCtxRows (subqs.map Query.exec).flatten,
    qlimit := none, qoffset := 0, ordering := [] }

/-- `q.from_self()`: wrap the query as a subselect, so later LIMIT and
OFFSET apply to the whole materialized result. -/
def Query.fromSelf (q : Query) : Query :=
  { primary := q.primary, joinClass := q.primary,
    rows := mkCtxRows q.exec,
    qlimit := none, qoffset := 0, ordering := [] }

/-- `capp.db.nodes(cls)`: all stored rows of the class (every row for
the abstract supertype). -/
def dbNodes (db : DB) (cl : PyClass) : Query :=
  { primary := cl, joinClass := cl,
    rows := mkCtxRows (db.nodes.filter (fun n =>
      match cl with
      | .node => true
      | .cls l => n.label == l
      | .gNode => false)),
    qlimit := none, qoffset := 0, ordering := [] }

/-- One `path` hop: inner join from the current joinpoint along a
declared link to its destination type; the joinpoint moves to the
destination class. -/
def path1 (sch : Schema) (db : DB) (q : Query) (link : String) : Except PyError Query :=
  match (metaOf sch q.joinClass).pgLinks.find? (fun p => p.fst == link) with
  | none => throw .attributeError
  | some pr =>
    let dstLabel := pr.snd
    let dstCls := PyClass.cls dstLabel
    pure { q with
      joinClass := dstCls,
      rows := q.rows.flatMap (fun c =>
        match c.resolveCls q.primary q.joinClass with
        | none => []
        | some r =>
          (db.edges.filter (fun e => e.src == r.node_id && e.link == link)).flatMap (fun e =>
            (db.nodes.filter (fun n => n.node_id == e.dst && n.label == dstLabel)).map (fun n =>
              { c with frames := (dstCls, n) :: c.frames }))) }

/-- `q.path("a.b.c")`: successive joins along a dotted link chain. -/
def pathChain (sch : Schema) (db : DB) (q : Query) (links : List String) :
    Except PyError Query :=
  links.foldlM (fun qq l => path1 sch db qq l) q

/-- `q.ids(values)` for a list argument: node id membership. -/
def Query.filterIds (q : Query) (ids : List String) : Query :=
  q.filter (fun c => ids.contains c.base.node_id)

/-- jsonb containment of one value in another (`@>`): arrays contain all
given elements, scalars are compared for equality. -/
def jvalContains (stored v : JVal) : Bool :=
  match stored, v with
  | .jlist xs, .jlist ys => ys.all (fun y => xs.contains y)
  | s, w => s == w

/-- `_props.contains(dict(k, v))` on a row. -/
def propsContain (r : PNode) (k : String) (v : JVal) : Bool :=
  match r.getProp k with
  | some s => jvalContains s v
  | none => false

/-- `q.props(k=v)`: filter by jsonb containment at the joinpoint entity. -/
def Query.propsFilter (q : Query) (k : String) (v : JVal) : Query :=
  q.filter (fun c =>
    match c.resolveCls q.primary q.joinClass with
    | some r => propsContain r k v
    | none => false)

/-- The row a column expression of the current entity refers to. -/
def Query.entityRow (q : Query) (c : Ctx) : Option PNode :=
  c.resolveCls q.primary q.joinClass

/-- `q.ids(values)` in psqlgraph: node-id membership on the entity. -/
def Query.filterIdsList (q : Query) (ids : List String) : Query :=
  q.filter (fun c =>
    match q.entityRow c with
    | some r => ids.contains r.node_id
    | none => false)

/-- Python scalar values arriving as GraphQL arguments. -/
inductive PyVal where
  | vstr (s : String)
  | vint (n : Int)
  | vbool (b : Bool)
deriving DecidableEq

/-- Python str() of an argument value (booleans render True / False). -/
def pyStr : PyVal → String
  | .vstr s => s
  | .vint n => toString n
  | .vbool true => "True"
  | .vbool false => "False"

/-- The jsonb form of a GraphQL scalar argument. -/
def pyToJ : PyVal → JVal
  | .vstr s => .jstr s
  | .vint n => .jnum n
  | .vbool b => .jbool b

/-- A scalar-or-list value inside an input object. -/
inductive SArg where
  | one (v : PyVal)
  | many (vs : List PyVal)
deriving DecidableEq

/-- A GraphQL argument value: a scalar, a list of scalars, or a list of
input objects (the shapes of `not` and the path filters).  Shapes that
the generated GraphQL schema cannot produce are modelled as type
errors where the Python code would fail on them. -/
inductive Arg where
  | one (v : PyVal)
  | many (vs : List PyVal)
  | maps (ms : List (List (String × SArg)))
deriving DecidableEq

abbrev Args := List (String × Arg)

def argLookup (args : Args) (k : String) : Option Arg :=
  (args.find? (fun p => p.fst == k)).map Prod.snd

/-- `val if isinstance(val, list) else [val]`. -/
def wrapVals : Arg → Except PyError (List PyVal)
  | .one v => pure [v]
  | .many vs => pure vs
  | .maps _ => throw .typeError

/-- Scan a string trying a matcher on every suffix (the semantics of a
percent wildcard). -/
def likeScan (f : List Char → Bool) : List Char → Bool
  | [] => f []
  | c :: s => f (c :: s) || likeScan f s

/-- The SQL LIKE matcher: percent matches any sequence, underscore any
single character, every other pattern character itself. -/
def likeMatch : List Char → List Char → Bool
  | [], s => s.isEmpty
  | p :: ps, s =>
    if p = '%' then likeScan (likeMatch ps) s
    else
      match s with
      | [] => false
      | c :: s2 => if p = '_' then likeMatch ps s2 else p == c && likeMatch ps s2

/-- The pattern the source builds for one value of a list-typed
property filter: percent, quote, the value, quote, percent. -/
def listLikePattern (v : String) : List Char :=
  '%' :: '"' :: (v.data ++ ['"', '%'])

/-- SQLAlchemy column.contains(s): LIKE with percent on both sides. -/
def sqlContains (sub : String) (s : String) : Bool :=
  likeMatch ('%' :: (sub.data ++ ['%'])) s.data

/-- Python str.lower and SQL lower: lowercase character by character
(kept explicit so that concrete evaluation reduces). -/
def pyLower (s : String) : String :=
  ⟨s.data.map Char.toLower⟩

-- ====================================================================
-- node.py filters

/-- Python s.split("-", 1) when it yields two parts: the text before the
first hyphen and the rest; none when the string has no hyphen (the
source then gets a one-element split and skips the value). -/
def splitCharsOnHyphen : List Char → Option (List Char × List Char)
  | [] => none
  | c :: cs =>
    if c = '-' then some ([], cs)
    else (splitCharsOnHyphen cs).map (fun p => (c :: p.fst, p.snd))

def splitFirstHyphen (s : String) : Option (String × String) :=
  (splitCharsOnHyphen s.data).map (fun p => (⟨p.fst⟩, ⟨p.snd⟩))

/-- node.py filter_project_project_id: project stores no project_id, so
each composite id is split on the first hyphen into program name and
project code; every well-formed id becomes a subquery matching the code
property and joining through the programs link on the program name; the
subqueries are UNION ALLed; values without a hyphen are skipped, and
when no subquery remains the query becomes always-false. -/
def filter_project_project_id (sch : Schema) (db : DB) (q : Query)
    (value : List String) : Except PyError Query := do
  let subqs ← value.foldlM (fun (acc : List Query) project_id =>
    match splitFirstHyphen project_id with
    | none => pure acc
    | some pr => do
      let q1 := q.propsFilter "code" (.jstr pr.snd)
      let q2 ← path1 sch db q1 "programs"
      let q3 := q2.propsFilter "name" (.jstr pr.fst)
      pure (acc ++ [q3])) []
  if subqs.isEmpty then
    pure (q.filter (fun _ => false))
  else
    pure (selectEntityFrom q.joinClass subqs)

abbrev PathEntry := List (String × SArg)

/-- jsonb form of an input-object field value. -/
def sargToJ : SArg → JVal
  | .one v => pyToJ v
  | .many vs => .jlist (vs.map pyStr)

/-- The end_of_traversal_filter closure of with_path_to: id keys become
id filters, any other key a jsonb containment filter; an empty entry
leaves the query unchanged. -/
def end_of_traversal_filter (entry : PathEntry) (q : Query) : Query :=
  entry.foldl (fun qq kv =>
    if kv.fst = "id" then
      match kv.snd with
      | .one v => qq.filter (fun c =>
          match qq.entityRow c with
          | some r => r.node_id == pyStr v
          | none => false)
      | .many vs => qq.filterIdsList (vs.map pyStr)
    else
      qq.filter (fun c =>
        match qq.entityRow c with
        | some r => propsContain r kv.fst (sargToJ kv.snd)
        | none => false)) q

/-- psqlgraph q.subq_path(link, f): keep entity rows having a link edge
to a destination row that survives the filtered destination query. -/
def subq_path (sch : Schema) (db : DB) (q : Query) (link : String)
    (f : Query → Query) : Except PyError Query :=
  match ((metaOf sch q.joinClass).pgEdges ++ (metaOf sch q.joinClass).shortcuts).find?
      (fun p => p.fst == link) with
  | none => throw .attributeError
  | some pr =>
    let dq := f (dbNodes db (.cls pr.snd))
    let keep := dq.rows.map (fun c => c.base.node_id)
    pure (q.filter (fun c =>
      match q.entityRow c with
      | some r => db.edges.any (fun e =>
          e.src == r.node_id && e.link == link && keep.contains e.dst)
      | none => false))

/-- Reachability in the data graph along forward edges, bounded by fuel. -/
def reachesAny (db : DB) : Nat → String → List String → Bool
  | 0, _, _ => false
  | fuel + 1, nid, targets =>
    db.edges.any (fun e => e.src == nid &&
      (targets.contains e.dst || reachesAny db fuel e.dst targets))

/-- Modelled from the spec: `subq_paths` is defined in
peregrine/resources/submission/graphql/traversal.py, which is not among
the provided sources.  Per the spec (section 4.3) it performs a bounded,
pruned path search over the schema graph and turns each discovered path
into an existence subquery selecting exactly the source rows that can
reach a destination row of the target type satisfying the end-of-path
filter; multiple discovered paths are unioned.  The model captures that
net effect: a filter keeping the source rows from which a chain of data
edges leads to a node of the target type surviving the end filter.  The
pruning heuristic only restricts which paths are found; every property
proved here about the result depends only on its being a restriction of
the source query, which any pruning policy satisfies. -/
def subq_paths (db : DB) (q : Query) (dst : String)
    (f : Query → Query) : Query :=
  let dq := f (dbNodes db (.cls dst))
  let targets := dq.rows.map (fun c => c.base.node_id)
  q.filter (fun c => reachesAny db (db.nodes.length + 1) c.base.node_id targets)

/-- node.py with_path_to (also used for with_path_to_any and
without_path_to).  The guard in the source reads
`if q.entity() is Node`, and the module-level name Node in node.py is
the graphene Node interface class defined further down in the file
(PyClass.gNode here), not the psqlgraph supertype; query entities are
always psqlgraph classes.  cc is case_cache_enabled(). -/
def with_path_to (cc : Bool) (sch : Schema) (db : DB) (q0 : Query)
    (value : List PathEntry) (union : Bool) : Except PyError Query := do
  let st ← value.foldlM (fun (st : Query × List Query) entry => do
    let q := st.fst
    -- Check target type
    let dst_type ←
      (match (entry.find? (fun kv => kv.fst == "type")).map Prod.snd with
       | some (.one (.vstr d)) => if d = "" then throw PyError.runtimeError else pure d
       | some _ => throw PyError.runtimeError
       | none => throw PyError.runtimeError)
    -- Prevent traversal to Node interface: compares the query entity
    -- with the graphene Node interface object
    if q.joinClass = PyClass.gNode then throw PyError.runtimeError else
    let rest := entry.filter (fun kv => !(kv.fst == "type"))
    let res ←
      (if cc ∧ dst_type = "case" then
        -- special case for traversing TO case over the shortcut link
        if (metaOf sch q.joinClass).shortcuts.any (fun p => p.fst == "_related_cases") then do
          let s ← subq_path sch db q "_related_cases" (end_of_traversal_filter rest)
          pure (q, s)
        else
          pure (q, q.filter (fun _ => false))
      else if cc ∧ (metaOf sch q.joinClass).label = "case" then do
        -- special case for traversing FROM case; clears any limit
        let q := q.limitNone
        let link := "_related_" ++ dst_type
        if (metaOf sch q.joinClass).shortcuts.any (fun p => p.fst == link) then do
          let s ← subq_path sch db q link (end_of_traversal_filter rest)
          pure (q, s)
        else
          pure (q, q.filter (fun _ => false))
      else
        pure (q, subq_paths db q dst_type (end_of_traversal_filter rest)))
    let q := res.fst
    let subq := res.snd
    if union then pure (q, st.snd ++ [subq]) else pure (subq, st.snd))
    (q0, ([] : List Query))
  let q := st.fst
  let union_qs := st.snd
  if union ∧ ¬ union_qs.isEmpty then
    match union_qs with
    | [] => pure q
    | u0 :: rest => pure (rest.foldl Query.union u0)
  else if union ∧ union_qs.isEmpty then
    pure (q.filter (fun _ => false))
  else
    pure q

/-- args.get for a string-typed argument. -/
def getStrArg (args : Args) (k : String) : Except PyError (Option String) :=
  match argLookup args k with
  | none => pure none
  | some (.one (.vstr s)) => pure (some s)
  | some _ => throw .typeError

/-- node.py apply_arg_quicksearch: lowercase the phrase, keep rows whose
node id contains it and rows whose submitter_id contains it (SQL LIKE
with percent on both sides), union the two queries.  The source then
calls q.order_by(length of the submitter id) WITHOUT assigning the
result, so the returned query carries no ordering; the model mirrors the
discarded call by attaching none. -/
def apply_arg_quicksearch (q : Query) (args : Args) : Except PyError Query := do
  let sp0 ← getStrArg args "quick_search"
  match sp0 with
  | none => pure q
  | some phrase =>
    if phrase = "" then pure q
    else
      let search_phrase := pyLower phrase
      let node_id_query := q.filter (fun c =>
        match q.entityRow c with
        | some r => sqlContains search_phrase (pyLower r.node_id)
        | none => false)
      let sub_id_query := q.filter (fun c =>
        match q.entityRow c with
        | some r =>
          match r.getProp "submitter_id" with
          | some jv => sqlContains search_phrase (pyLower (astext jv))
          | none => false
        | none => false)
      pure (node_id_query.union sub_id_query)

-- ====================================================================
-- util.py pagination

def DEFAULT_LIMIT : Int := 10

/-- args.get for an integer-typed argument with a default. -/
def getIntArg (args : Args) (k : String) (dflt : Int) : Except PyError Int :=
  match argLookup args k with
  | none => pure dflt
  | some (.one (.vint n)) => pure n
  | some _ => throw .typeError

/-- util.py apply_arg_limit: default cap when first is unset, no cap
when first is zero or negative, otherwise LIMIT first. -/
def apply_arg_limit (q : Query) (args : Args) : Except PyError Query := do
  let limit ← getIntArg args "first" DEFAULT_LIMIT
  if limit > 0 then pure (q.limitTo limit.toNat) else pure q

/-- util.py apply_arg_offset: OFFSET when positive. -/
def apply_arg_offset (q : Query) (args : Args) : Except PyError Query := do
  let offset ← getIntArg args "offset" 0
  if offset > 0 then pure (q.offsetTo offset.toNat) else pure q

-- ====================================================================
-- node.py apply_query_args, stage by stage in source order

/-- Stage of apply_query_args filtering by declared dictionary
properties: list-typed properties AND one LIKE containment pattern per
given value over the jsonb text; scalar properties OR the rendered
values, lowercasing booleans first. -/
def apply_prop_filters (sch : Schema) (q : Query) (args : Args) :
    Except PyError Query := do
  let props := (metaOf sch q.joinClass).pgProps
  args.foldlM (fun qq kv => do
    match props.find? (fun p => p.fst == kv.fst) with
    | none => pure qq
    | some pr => do
      let key := kv.fst
      let val ← wrapVals kv.snd
      if pr.snd = FieldType.listT then do
        let pats ← val.mapM (fun v =>
          match v with
          | .vstr s => pure (listLikePattern s)
          | _ => throw PyError.typeError)
        pure (qq.filter (fun c =>
          match qq.entityRow c with
          | some r =>
            match r.getProp key with
            | some jv => pats.all (fun p => likeMatch p (astext jv).data)
            | none => false
          | none => false))
      else
        let val := if pr.snd = FieldType.boolT
          then val.map (fun v => PyVal.vstr (pyLower (pyStr v))) else val
        let strs := val.map pyStr
        pure (qq.filter (fun c =>
          match qq.entityRow c with
          | some r =>
            match r.getProp key with
            | some jv => strs.contains (astext jv)
            | none => false
          | none => false))) q

/-- Stage applying the `not` argument: each input object contributes its
first key/value pair, later objects overriding earlier ones; every
recognized property key becomes a negated membership filter (SQL NULL
never satisfies `NOT IN`, so rows missing the property are excluded). -/
def apply_not_filter (sch : Schema) (q : Query) (args : Args) :
    Except PyError Query := do
  match argLookup args "not" with
  | none => pure q
  | some (.maps ds) => do
    let notProps ← ds.foldlM (fun (acc : List (String × SArg)) d =>
      match d with
      | [] => throw PyError.indexError
      | kv :: _ => pure ((acc.filter (fun p => !(p.fst == kv.fst))) ++ [kv])) []
    let props := (metaOf sch q.joinClass).pgProps
    notProps.foldlM (fun qq kv => do
      if props.any (fun p => p.fst == kv.fst) then
        let val := match kv.snd with | .one v => [v] | .many vs => vs
        let strs := val.map pyStr
        pure (qq.filter (fun c =>
          match qq.entityRow c with
          | some r =>
            match r.getProp kv.fst with
            | some jv => !(strs.contains (astext jv))
            | none => false
          | none => false))
      else pure qq) q
  | some _ => throw PyError.typeError

/-- psqlgraph q.ids applied to a raw argument value: a single value
becomes an equality, a list a membership filter. -/
def applyIdsArg (q : Query) (a : Arg) : Except PyError Query :=
  match a with
  | .one v => pure (q.filter (fun c =>
      match q.entityRow c with
      | some r => r.node_id == pyStr v
      | none => false))
  | .many vs => pure (q.filterIdsList (vs.map pyStr))
  | .maps _ => throw .typeError

/-- Stage applying `submitter_id`, only for the generic supertype query
(entity label "node"). -/
def apply_submitter_filter (sch : Schema) (q : Query) (args : Args) :
    Except PyError Query := do
  if (metaOf sch q.joinClass).label = "node" then
    match argLookup args "submitter_id" with
    | none => pure q
    | some a => do
      let vs ← wrapVals a
      let strs := vs.map pyStr
      pure (q.filter (fun c =>
        match q.entityRow c with
        | some r =>
          match r.getProp "submitter_id" with
          | some jv => strs.contains (astext jv)
          | none => false
        | none => false))
  else pure q

/-- Stand-in for the external dateutil parser and the SQL timestamp
cast: strings of shape YYYY-MM-DD parse to a number ordered like the
date; anything else fails.  The source delegates parsing to the external
dateutil library, so only the comparison structure matters here; a
stored value the SQL cast cannot parse is modelled as not matching. -/
def parseDate (s : String) : Option Int :=
  match s.data with
  | [y1, y2, y3, y4, h1, m1, m2, h2, d1, d2] =>
    if h1 = '-' ∧ h2 = '-' ∧ [y1, y2, y3, y4, m1, m2, d1, d2].all Char.isDigit then
      some ((((y1.toNat * 10 + y2.toNat) * 10 + y3.toNat) * 10 + y4.toNat : Int) * 10000
        + ((m1.toNat * 10 + m2.toNat : Nat) : Int) * 100
        + ((d1.toNat * 10 + d2.toNat : Nat) : Int))
    else none
  | _ => none

/-- One of the four date-range stages: parse the boundary (a parse
failure is an input error) and compare the cast stored property. -/
def applyDateFilter (q : Query) (args : Args) (argName : String)
    (propName : String) (after : Bool) : Except PyError Query := do
  match argLookup args argName with
  | none => pure q
  | some a => do
    let s ← (match a with
      | .one (.vstr s) => pure s
      | _ => throw PyError.typeError)
    match parseDate s with
    | none => throw PyError.valueError
    | some bound =>
      pure (q.filter (fun c =>
        match q.entityRow c with
        | some r =>
          match (r.getProp propName).bind (fun jv => parseDate (astext jv)) with
          | some dv => if after then decide (bound < dv) else decide (dv < bound)
          | none => false
        | none => false))

/-- node.py get_link_attr: RuntimeError on a link name the entity does
not declare. -/
def get_link_attr_check (sch : Schema) (cl : PyClass) (link : String) :
    Except PyError Unit :=
  if (metaOf sch cl).pgEdges.any (fun p => p.fst == link) then pure ()
  else throw PyError.runtimeError

/-- `getattr(cls, link).any()`: the row has at least one edge of the
link type. -/
def hasLinkEdge (db : DB) (q : Query) (link : String) (c : Ctx) : Bool :=
  match q.entityRow c with
  | some r => db.edges.any (fun e => e.src == r.node_id && e.link == link)
  | none => false

def apply_with_links (sch : Schema) (db : DB) (q : Query) (args : Args) :
    Except PyError Query := do
  match argLookup args "with_links" with
  | none => pure q
  | some (.many vs) =>
    (vs.map pyStr).dedup.foldlM (fun qq link => do
      let _ ← get_link_attr_check sch qq.joinClass link
      pure (qq.filter (hasLinkEdge db qq link))) q
  | some _ => throw PyError.typeError

def apply_with_links_any (sch : Schema) (db : DB) (q : Query) (args : Args) :
    Except PyError Query := do
  match argLookup args "with_links_any" with
  | none => pure q
  | some (.many vs) => do
    let links := (vs.map pyStr).dedup
    if links.isEmpty then pure q
    else do
      let subqs ← links.foldlM (fun (acc : List Query) link => do
        let _ ← get_link_attr_check sch q.joinClass link
        pure (acc ++ [q.filter (hasLinkEdge db q link)])) []
      pure (selectEntityFrom q.joinClass subqs)
  | some _ => throw PyError.typeError

def apply_without_links (sch : Schema) (db : DB) (q : Query) (args : Args) :
    Except PyError Query := do
  match argLookup args "without_links" with
  | none => pure q
  | some (.many vs) =>
    (vs.map pyStr).foldlM (fun qq link => do
      let _ ← get_link_attr_check sch qq.joinClass link
      pure (qq.filter (fun c => !(hasLinkEdge db qq link c)))) q
  | some _ => throw PyError.typeError

/-- The list of path-filter input objects carried by a traversal
argument. -/
def pathEntries : Arg → Except PyError (List PathEntry)
  | .maps ms => pure ms
  | _ => throw .typeError

/-- The project_id values handed to filter_project_project_id: a single
string or a list of strings, anything else failing on str.split. -/
def projIdStrings : Arg → Except PyError (List String)
  | .one (.vstr s) => pure [s]
  | .one _ => throw .attributeError
  | .many vs => vs.mapM (fun v =>
      match v with
      | .vstr s => pure s
      | _ => throw PyError.attributeError)
  | .maps _ => throw .attributeError

/-- One of the two ordering stages: order by node id, by the literal
"type" (a no-op), or by a declared property; anything else is an input
error. -/
def applyOrderArg (sch : Schema) (q : Query) (args : Args) (argName : String)
    (desc : Bool) : Except PyError Query := do
  match argLookup args argName with
  | none => pure q
  | some a => do
    let key ← (match a with
      | .one (.vstr s) => pure s
      | _ => throw PyError.typeError)
    if key = "id" then pure (q.orderByKey (.byNodeId desc))
    else if key = "type" then pure q
    else if (metaOf sch q.joinClass).pgProps.any (fun p => p.fst == key) then
      pure (q.orderByKey (.byProp key desc))
    else throw PyError.runtimeError

/-- node.py apply_query_args: the full argument-compilation pipeline, in
source order; ends with a fresh outer wrapping followed by LIMIT and
OFFSET.  cc is case_cache_enabled(). -/
def apply_query_args (cc : Bool) (sch : Schema) (db : DB) (q : Query)
    (args : Args) : Except PyError Query := do
  let q ← apply_prop_filters sch q args
  let q ← apply_not_filter sch q args
  let q ← (match argLookup args "id" with
    | none => pure q
    | some a => applyIdsArg q a)
  let q ← (match argLookup args "ids" with
    | none => pure q
    | some a => applyIdsArg q a)
  let q ← apply_submitter_filter sch q args
  let q ← (if (argLookup args "quick_search").isSome
    then apply_arg_quicksearch q args else pure q)
  let q ← applyDateFilter q args "created_after" "created_datetime" true
  let q ← applyDateFilter q args "created_before" "created_datetime" false
  let q ← applyDateFilter q args "updated_after" "updated_datetime" true
  let q ← applyDateFilter q args "updated_before" "updated_datetime" false
  let q ← apply_with_links sch db q args
  let q ← apply_with_links_any sch db q args
  let q ← apply_without_links sch db q args
  let q ← (match argLookup args "with_path_to" with
    | none => pure q
    | some a => do
      let ms ← pathEntries a
      with_path_to cc sch db q ms false)
  let q ← (match argLookup args "with_path_to_any" with
    | none => pure q
    | some a => do
      let ms ← pathEntries a
      with_path_to cc sch db q ms true)
  let q ← (match argLookup args "without_path_to" with
    | none => pure q
    | some a => do
      let ms ← pathEntries a
      let w ← with_path_to cc sch db q ms false
      pure (q.exceptQ w))
  let q ← (match argLookup args "project_id" with
    | none => pure q
    | some a =>
      if (metaOf sch q.joinClass).label = "project" then do
        let ids ← projIdStrings a
        filter_project_project_id sch db q ids
      else pure q)
  let q ← applyOrderArg sch q args "order_by_asc" false
  let q ← applyOrderArg sch q args "order_by_desc" true
  let q ← apply_arg_limit q.fromSelf args
  let q ← apply_arg_offset q args
  pure q

-- ====================================================================
-- util.py authorization_filter

/-- The request-scoped authorization inputs the source reads: the
configured authz leaf entity and subject entity (None when unset), the
permission map fg.read_access_permissions (scope key to allowed subject
ids, a star meaning wildcard), and fg.read_access_projects. -/
structure AuthCfg where
  authLeaf : Option String
  subject : Option String
  perms : List (String × List String)
  readProjects : List String
deriving DecidableEq

def optCls : Option String → Option PyClass :=
  Option.map PyClass.cls

/-- list(cls._pg_links.keys())[0] with its destination type; IndexError
when the class declares no links. -/
def firstLink (sch : Schema) (cl : PyClass) : Except PyError (String × PyClass) :=
  match (metaOf sch cl).pgLinks with
  | [] => throw .indexError
  | p :: _ => pure (p.fst, PyClass.cls p.snd)

/-- The while loop of authorization_filter walking first outgoing links
until the authz leaf type or Program is reached.  On a cyclic link chain
the source loops forever; the model reports that as an error once the
fuel (larger than any acyclic chain) runs out. -/
def walkChain (sch : Schema) (authLeaf : PyClass) :
    Nat → PyClass → List String → Except PyError (List String × PyClass)
  | 0, _, _ => throw .nonTermination
  | fuel + 1, tmp, path =>
    if tmp = authLeaf ∨ tmp = PyClass.cls "program" then pure (path, tmp)
    else do
      let nl ← firstLink sch tmp
      walkChain sch authLeaf fuel nl.snd (path ++ [nl.fst])

/-- Text equality of a property of the frame a class expression refers
to (SQL NULL never compares equal). -/
def clsPropEq (primary : PyClass) (cl : PyClass) (k : String) (v : String)
    (c : Ctx) : Bool :=
  match c.resolveCls primary cl with
  | some r =>
    match r.getProp k with
    | some jv => astext jv == v
    | none => false
  | none => false

/-- Text membership of a property of the frame a class expression
refers to. -/
def clsPropIn (primary : PyClass) (cl : PyClass) (k : String)
    (vs : List String) (c : Ctx) : Bool :=
  match c.resolveCls primary cl with
  | some r =>
    match r.getProp k with
    | some jv => vs.contains (astext jv)
    | none => false
  | none => false

/-- util.py authorization_filter: walk scoped entities up to the authz
leaf and its persons link, then restrict by the permission map (an empty
map becomes the always-false predicate; otherwise a disjunction over the
map entries, each a conjunction headed by a project_id equality and
possibly extended by submitter-id membership), and finally restrict a
project query to the readable projects. -/
def authorization_filter (cfg : AuthCfg) (sch : Schema) (db : DB)
    (q0 : Query) : Except PyError Query := do
  let cls0 := q0.joinClass
  let authLeafNode := optCls cfg.authLeaf
  let subjectNode := optCls cfg.subject
  let st1 ←
    (if cls0 ≠ PyClass.cls "project" ∧ cls0 ≠ PyClass.cls "program"
        ∧ some cls0 ≠ subjectNode ∧ authLeafNode.isSome then do
      let leaf := authLeafNode.getD PyClass.gNode
      let st0 ←
        (if cls0 ≠ leaf then do
          let nl ← firstLink sch cls0
          let wr ← walkChain sch leaf (sch.length + 1) nl.snd [nl.fst]
          if wr.snd = leaf then do
            let q2 ← pathChain sch db q0 wr.fst
            pure (q2, q2.joinClass)
          else
            -- WARNING printed in the source: node not found parent
            pure (q0, cls0)
        else pure (q0, cls0))
      if st0.snd = leaf then do
        let q3 ← path1 sch db st0.fst "persons"
        pure (q3.resetJoinpoint, st0.snd, some q3.joinClass)
      else
        pure (st0.fst, st0.snd, (none : Option PyClass))
    else
      pure (q0, cls0, (none : Option PyClass)))
  let q := st1.fst
  let cls := st1.snd.fst
  let sub_cls := st1.snd.snd
  let q ←
    (if cls = PyClass.node ∨ (metaOf sch cls).hasProjectId then
      if cfg.perms.isEmpty then
        -- no permission at all: deny access
        pure (q.filter (fun _ => false))
      else do
        let st2 ← cfg.perms.foldlM
          (fun (st : Query × List (Ctx → Bool)) kv => do
            let q := st.fst
            let key := kv.fst
            let value := kv.snd
            let fg0 : List (Ctx → Bool) := [clsPropEq q.primary cls "project_id" key]
            let res ←
              (if ¬ value.contains "*" ∧ authLeafNode.isSome then
                if cls ≠ PyClass.cls "project" ∧ cls ≠ PyClass.cls "program"
                    ∧ value.length > 0 then
                  if some cls = authLeafNode ∧ sub_cls = subjectNode then do
                    let sc ← (match sub_cls with
                      | some sc => pure sc
                      | none => throw PyError.attributeError)
                    let pred : Ctx → Bool := fun c =>
                      clsPropIn q.primary cls "submitter_id" value c
                      || clsPropIn q.primary sc "submitter_id" value c
                    pure (q, fg0 ++ [pred])
                  else if some cls = subjectNode then do
                    let q4 ← path1 sch db q "subjects"
                    let temp_cls := q4.joinClass
                    let q5 := q4.resetJoinpoint
                    let pred : Ctx → Bool := fun c =>
                      clsPropIn q.primary cls "submitter_id" value c
                      || clsPropIn q.primary temp_cls "submitter_id" value c
                    -- the source also prints cls._pg_backrefs entries here;
                    -- a missing subjects backref would raise KeyError, which
                    -- the given class metadata does not model, the subjects
                    -- link lookup above playing that role
                    pure (q5, fg0 ++ [pred])
                  else
                    -- ERROR printed in the source: node found has wrong
                    -- structure; only the project_id conjunct remains
                    pure (q, fg0)
                else pure (q, fg0)
              else pure (q, fg0))
            let fgroup := res.snd
            pure (res.fst, st.snd ++ [fun c => fgroup.all (fun p => p c)]))
          (q, ([] : List (Ctx → Bool)))
        let ands := st2.snd
        if ands.isEmpty then pure st2.fst
        else pure (st2.fst.filter (fun c => ands.any (fun p => p c)))
    else pure q)
  let q ←
    (if (metaOf sch cls).label = "project" then
      -- do not return unauthorized projects
      filter_project_project_id sch db q cfg.readProjects
    else pure q)
  pure q

/-- util.py get_authorized_query. -/
def get_authorized_query (cfg : AuthCfg) (sch : Schema) (db : DB)
    (cl : PyClass) : Except PyError Query :=
  authorization_filter cfg sch db (dbNodes db cl)

-- ====================================================================
-- node.py NodeCounter

/-- State of the per-request NodeCounter: the project-id placeholder map
and the pooled count subqueries (key, table name, placeholder). -/
structure NodeCounterState where
  projectIds : List (String × String)
  queries : List (String × String × String)
deriving DecidableEq

/-- Result of add_count: None (ineligible, caller falls back to an
immediate count), the scalar zero, or a pooled promise identified by its
key. -/
inductive AddCountResult where
  | noneR
  | zero
  | promise (key : String)
deriving DecidableEq

/-- The project-id extraction of add_count: unwrap a one-element list,
then require a string (a non-string or longer list means ineligible). -/
def extractPid : Arg → Option String
  | .one (.vstr s) => some s
  | .many [PyVal.vstr s] => some s
  | _ => none

/-- node.py NodeCounter.add_count: escape non-trivial cases (unscoped
class, the project class, extra arguments, a non-scalar project id);
resolve to zero without pooling when the project id is not readable;
otherwise pool a placeholder count subquery and hand back its promise. -/
def NodeCounter.add_count (readProjects : List String) (sch : Schema)
    (cl : PyClass) (args : Args) (st : NodeCounterState) :
    AddCountResult × NodeCounterState :=
  if cl ≠ PyClass.node ∧ ¬ (metaOf sch cl).hasProjectId then (.noneR, st)
  else if (metaOf sch cl).label = "project" then (.noneR, st)
  else if args.map Prod.fst ≠ ["project_id"] then (.noneR, st)
  else
    match argLookup args "project_id" with
    | none => (.noneR, st)
    | some a =>
      match extractPid a with
      | none => (.noneR, st)
      | some project_id =>
        if ¬ readProjects.contains project_id then (.zero, st)
        else
          let found := st.projectIds.find? (fun p => p.fst == project_id)
          let pname :=
            (match found with
             | some p => p.snd
             | none => "p_" ++ toString st.projectIds.length)
          let st1 :=
            (match found with
             | some _ => st
             | none => { st with projectIds := st.projectIds ++ [(project_id, pname)] })
          let key := "c_" ++ toString st1.queries.length
          (.promise key,
            { st1 with queries := st1.queries ++ [(key, (metaOf sch cl).label, pname)] })

-- ====================================================================
-- General lemmas about the query model

theorem mem_bases {q : Query} {r : PNode} :
    r ∈ q.bases ↔ ∃ c, c ∈ q.rows ∧ c.base = r := by
  simp [Query.bases, List.mem_map]

theorem bases_filter_sub {q : Query} {p : Ctx → Bool} :
    ∀ r, r ∈ (q.filter p).bases → r ∈ q.bases := by
  intro r hr
  rcases mem_bases.mp hr with ⟨c, hc, hb⟩
  exact mem_bases.mpr ⟨c, (List.mem_filter.mp hc).1, hb⟩

theorem sortedRows_perm (q : Query) : q.sortedRows.Perm q.rows := by
  unfold Query.sortedRows
  split
  · exact List.Perm.refl _
  · exact List.perm_insertionSort _ _

theorem mem_exec_sub {q : Query} : ∀ r, r ∈ q.exec → r ∈ q.bases := by
  intro r hr
  unfold Query.exec at hr
  have hoff : r ∈ (q.sortedRows.map (·.base)).drop q.qoffset := by
    cases hq : q.qlimit with
    | none => rw [hq] at hr; exact hr
    | some k => rw [hq] at hr; exact List.mem_of_mem_take hr
  have hbs : r ∈ q.sortedRows.map (·.base) := List.mem_of_mem_drop hoff
  have := ((sortedRows_perm q).map (·.base)).mem_iff.mp hbs
  exact this

theorem mem_exec_iff {q : Query} (hl : q.qlimit = none) (ho : q.qoffset = 0) :
    ∀ r, r ∈ q.exec ↔ r ∈ q.bases := by
  intro r
  constructor
  · exact mem_exec_sub r
  · intro hr
    unfold Query.exec
    rw [hl, ho]
    simp only [List.drop_zero]
    exact ((sortedRows_perm q).map (·.base)).mem_iff.mpr hr

theorem exec_eq_bases {q : Query} (hl : q.qlimit = none) (ho : q.qoffset = 0)
    (hor : q.ordering = []) : q.exec = q.bases := by
  unfold Query.exec Query.sortedRows
  rw [hl, ho, hor]
  simp [Query.bases]

theorem exec_nil_of_rows_nil {q : Query} (h : q.rows = []) : q.exec = [] := by
  have hb : q.bases = [] := by simp [Query.bases, h]
  have : ∀ r, r ∈ q.exec → False := by
    intro r hr
    have := mem_exec_sub r hr
    rw [hb] at this
    exact (List.not_mem_nil r) this
  exact List.eq_nil_iff_forall_not_mem.mpr this

/-- A query stage only restricts which base rows can appear. -/
def Narrows (q q2 : Query) : Prop :=
  ∀ r, r ∈ q2.bases → r ∈ q.bases

theorem narrows_refl {q : Query} : Narrows q q := fun _ h => h

theorem narrows_trans {a b c : Query} (h1 : Narrows a b) (h2 : Narrows b c) :
    Narrows a c := fun r h => h1 r (h2 r h)

theorem narrows_filter {q : Query} {p : Ctx → Bool} : Narrows q (q.filter p) :=
  bases_filter_sub

theorem bases_mkCtxRows {l : List PNode} : (mkCtxRows l).map Ctx.base = l := by
  induction l with
  | nil => rfl
  | cons x xs ih => simp only [mkCtxRows, List.map_cons] at ih ⊢; rw [ih]

theorem mem_bases_mkCtx {l : List PNode} {pr jc : PyClass} {ql : Option Nat}
    {qo : Nat} {ord : List OrdKey} {r : PNode} :
    r ∈ (Query.mk pr jc (mkCtxRows l) ql qo ord).bases ↔ r ∈ l := by
  simp [Query.bases, mkCtxRows]

theorem narrows_union {q a b : Query} (ha : Narrows q a) (hb : Narrows q b) :
    Narrows q (a.union b) := by
  intro r hr
  rw [Query.union] at hr
  rw [mem_bases_mkCtx, List.mem_dedup, List.mem_append] at hr
  rcases hr with h | h
  · exact ha r (mem_exec_sub r h)
  · exact hb r (mem_exec_sub r h)

theorem narrows_exceptQ {q a : Query} (ha : Narrows q a) (b : Query) :
    Narrows q (a.exceptQ b) := by
  intro r hr
  rw [Query.exceptQ] at hr
  rw [mem_bases_mkCtx, List.mem_filter] at hr
  exact ha r (mem_exec_sub r (List.mem_dedup.mp hr.1))

theorem narrows_selectEntityFrom {q : Query} {cl : PyClass} {subqs : List Query}
    (h : ∀ s, s ∈ subqs → Narrows q s) :
    Narrows q (selectEntityFrom cl subqs) := by
  intro r hr
  rw [selectEntityFrom] at hr
  rw [mem_bases_mkCtx, List.mem_flatten] at hr
  rcases hr with ⟨l, hl, hrl⟩
  rcases List.mem_map.mp hl with ⟨s, hs, hsl⟩
  subst hsl
  exact h s hs r (mem_exec_sub r hrl)

theorem narrows_fromSelf {q : Query} : Narrows q q.fromSelf := by
  intro r hr
  rw [Query.fromSelf] at hr
  rw [mem_bases_mkCtx] at hr
  exact mem_exec_sub r hr

theorem narrows_path1 {sch : Schema} {db : DB} {q q2 : Query} {link : String}
    (h : path1 sch db q link = .ok q2) : Narrows q q2 := by
  unfold path1 at h
  split at h
  · exact absurd h (by simp)
  · intro r hr
    have h2 := h
    simp only [pure, Except.pure, Except.ok.injEq] at h2
    subst h2
    rcases mem_bases.mp hr with ⟨c, hc, hb⟩
    simp only [List.mem_flatMap] at hc
    rcases hc with ⟨c0, hc0, hcc⟩
    apply mem_bases.mpr
    refine ⟨c0, hc0, ?_⟩
    revert hcc
    split
    · intro hcc; exact absurd hcc (List.not_mem_nil c)
    · intro hcc
      simp only [List.mem_flatMap, List.mem_map] at hcc
      rcases hcc with ⟨e, _, n, _, hn⟩
      subst hn
      exact hb

theorem narrows_limitNone {q : Query} : Narrows q q.limitNone := by
  intro r hr
  exact hr

theorem bases_limitNone {q : Query} : q.limitNone.bases = q.bases := rfl

/-- Inversion of bind in the Except monad. -/
theorem except_bind_ok {α β : Type} {x : Except PyError α}
    {f : α → Except PyError β} {b : β} :
    (x >>= f) = Except.ok b ↔ ∃ a, x = Except.ok a ∧ f a = Except.ok b := by
  cases x with
  | error e =>
    constructor
    · intro h; exact absurd h (by simp [Bind.bind, Except.bind])
    · rintro ⟨a, ha, _⟩; exact absurd ha (by simp)
  | ok a =>
    constructor
    · intro h; exact ⟨a, rfl, h⟩
    · rintro ⟨a2, ha, hf⟩
      have : a2 = a := by
        injection ha.symm
      subst this
      exact hf

theorem except_pure_ok {α : Type} {a b : α} :
    (pure a : Except PyError α) = Except.ok b ↔ a = b := by
  constructor
  · intro h; injection h
  · intro h; subst h; rfl

/-- Invariant preservation along a monadic fold in the Except monad. -/
theorem foldlM_inv {σ α : Type} {f : σ → α → Except PyError σ} (P : σ → Prop)
    (hstep : ∀ s a s2, P s → f s a = .ok s2 → P s2) :
    ∀ (l : List α) (s0 sf : σ), P s0 → List.foldlM f s0 l = .ok sf → P sf := by
  intro l
  induction l with
  | nil =>
    intro s0 sf h0 hf
    rw [List.foldlM_nil, except_pure_ok] at hf
    exact hf ▸ h0
  | cons a l ih =>
    intro s0 sf h0 hf
    rw [List.foldlM_cons] at hf
    rcases except_bind_ok.mp hf with ⟨s1, h1, h2⟩
    exact ih s1 sf (hstep s0 a s1 h0 h1) h2

-- ====================================================================
-- Narrowing of every stage of apply_query_args

theorem apply_prop_filters_narrows {sch : Schema} {q q2 : Query} {args : Args}
    (h : apply_prop_filters sch q args = .ok q2) : Narrows q q2 := by
  unfold apply_prop_filters at h
  refine foldlM_inv (Narrows q) ?_ args q q2 narrows_refl h
  intro s kv s2 hs hstep
  dsimp only at hstep
  split at hstep
  · rw [except_pure_ok] at hstep
    exact hstep ▸ hs
  · rcases except_bind_ok.mp hstep with ⟨val, _, hstep⟩
    split at hstep
    · rcases except_bind_ok.mp hstep with ⟨pats, _, hstep⟩
      rw [except_pure_ok] at hstep
      exact hstep ▸ narrows_trans hs narrows_filter
    · rw [except_pure_ok] at hstep
      exact hstep ▸ narrows_trans hs narrows_filter

theorem apply_not_filter_narrows {sch : Schema} {q q2 : Query} {args : Args}
    (h : apply_not_filter sch q args = .ok q2) : Narrows q q2 := by
  unfold apply_not_filter at h
  split at h
  · rw [except_pure_ok] at h
    exact h ▸ narrows_refl
  · rcases except_bind_ok.mp h with ⟨notProps, _, h⟩
    refine foldlM_inv (Narrows q) ?_ notProps q q2 narrows_refl h
    intro s kv s2 hs hstep
    dsimp only at hstep
    split at hstep
    · rw [except_pure_ok] at hstep
      exact hstep ▸ narrows_trans hs narrows_filter
    · rw [except_pure_ok] at hstep
      exact hstep ▸ hs
  · exact absurd h (by simp [throw, throwThe, MonadExceptOf.throw])

theorem applyIdsArg_narrows {q q2 : Query} {a : Arg}
    (h : applyIdsArg q a = .ok q2) : Narrows q q2 := by
  unfold applyIdsArg at h
  split at h
  · rw [except_pure_ok] at h
    exact h ▸ narrows_filter
  · rw [except_pure_ok] at h
    exact h ▸ narrows_filter
  · exact absurd h (by simp [throw, throwThe, MonadExceptOf.throw])

theorem maybeIdsStage_narrows {q q2 : Query} {o : Option Arg}
    (h : (match o with
          | none => pure q
          | some a => applyIdsArg q a) = Except.ok q2) : Narrows q q2 := by
  cases o with
  | none => rw [except_pure_ok] at h; exact h ▸ narrows_refl
  | some a => exact applyIdsArg_narrows h

theorem apply_submitter_filter_narrows {sch : Schema} {q q2 : Query} {args : Args}
    (h : apply_submitter_filter sch q args = .ok q2) : Narrows q q2 := by
  unfold apply_submitter_filter at h
  split at h
  · split at h
    · rw [except_pure_ok] at h
      exact h ▸ narrows_refl
    · rcases except_bind_ok.mp h with ⟨vs, _, h⟩
      rw [except_pure_ok] at h
      exact h ▸ narrows_filter
  · rw [except_pure_ok] at h
    exact h ▸ narrows_refl

theorem apply_arg_quicksearch_narrows {q q2 : Query} {args : Args}
    (h : apply_arg_quicksearch q args = .ok q2) : Narrows q q2 := by
  unfold apply_arg_quicksearch at h
  rcases except_bind_ok.mp h with ⟨sp0, _, h⟩
  split at h
  · rw [except_pure_ok] at h
    exact h ▸ narrows_refl
  · split at h
    · rw [except_pure_ok] at h
      exact h ▸ narrows_refl
    · rw [except_pure_ok] at h
      exact h ▸ narrows_union narrows_filter narrows_filter

theorem maybeQuicksearch_narrows {q q2 : Query} {args : Args} {b : Bool}
    (h : (if b then apply_arg_quicksearch q args else pure q) = Except.ok q2) :
    Narrows q q2 := by
  split at h
  · exact apply_arg_quicksearch_narrows h
  · rw [except_pure_ok] at h; exact h ▸ narrows_refl

theorem applyDateFilter_narrows {q q2 : Query} {args : Args} {an pn : String}
    {af : Bool} (h : applyDateFilter q args an pn af = .ok q2) : Narrows q q2 := by
  unfold applyDateFilter at h
  split at h
  · rw [except_pure_ok] at h
    exact h ▸ narrows_refl
  · rcases except_bind_ok.mp h with ⟨s, _, h⟩
    split at h
    · exact absurd h (by simp [throw, throwThe, MonadExceptOf.throw])
    · rw [except_pure_ok] at h
      exact h ▸ narrows_filter

theorem apply_with_links_narrows {sch : Schema} {db : DB} {q q2 : Query}
    {args : Args} (h : apply_with_links sch db q args = .ok q2) : Narrows q q2 := by
  unfold apply_with_links at h
  split at h
  · rw [except_pure_ok] at h
    exact h ▸ narrows_refl
  · refine foldlM_inv (Narrows q) ?_ _ q q2 narrows_refl h
    intro s link s2 hs hstep
    rcases except_bind_ok.mp hstep with ⟨u, _, hstep⟩
    rw [except_pure_ok] at hstep
    exact hstep ▸ narrows_trans hs narrows_filter
  · exact absurd h (by simp [throw, throwThe, MonadExceptOf.throw])

theorem apply_with_links_any_narrows {sch : Schema} {db : DB} {q q2 : Query}
    {args : Args} (h : apply_with_links_any sch db q args = .ok q2) : Narrows q q2 := by
  unfold apply_with_links_any at h
  split at h
  · rw [except_pure_ok] at h
    exact h ▸ narrows_refl
  · dsimp only at h
    split at h
    · rw [except_pure_ok] at h
      exact h ▸ narrows_refl
    · rcases except_bind_ok.mp h with ⟨subqs, hsub, h⟩
      rw [except_pure_ok] at h
      have hall : ∀ s, s ∈ subqs → Narrows q s := by
        refine foldlM_inv (fun acc => ∀ s, s ∈ acc → Narrows q s) ?_ _ [] subqs
          (by intro s hs; exact absurd hs (List.not_mem_nil s)) hsub
        intro acc link acc2 hacc hstep
        rcases except_bind_ok.mp hstep with ⟨u, _, hstep⟩
        rw [except_pure_ok] at hstep
        subst hstep
        intro s hs
        rcases List.mem_append.mp hs with h1 | h1
        · exact hacc s h1
        · rw [List.mem_singleton] at h1
          exact h1 ▸ narrows_filter
      exact h ▸ narrows_selectEntityFrom hall
  · exact absurd h (by simp [throw, throwThe, MonadExceptOf.throw])

theorem apply_without_links_narrows {sch : Schema} {db : DB} {q q2 : Query}
    {args : Args} (h : apply_without_links sch db q args = .ok q2) : Narrows q q2 := by
  unfold apply_without_links at h
  split at h
  · rw [except_pure_ok] at h
    exact h ▸ narrows_refl
  · refine foldlM_inv (Narrows q) ?_ _ q q2 narrows_refl h
    intro s link s2 hs hstep
    rcases except_bind_ok.mp hstep with ⟨u, _, hstep⟩
    rw [except_pure_ok] at hstep
    exact hstep ▸ narrows_trans hs narrows_filter
  · exact absurd h (by simp [throw, throwThe, MonadExceptOf.throw])

theorem subq_path_narrows {sch : Schema} {db : DB} {q q2 : Query} {link : String}
    {f : Query → Query} (h : subq_path sch db q link f = .ok q2) : Narrows q q2 := by
  unfold subq_path at h
  split at h
  · exact absurd h (by simp [throw, throwThe, MonadExceptOf.throw])
  · rw [except_pure_ok] at h
    exact h ▸ narrows_filter

theorem narrows_foldl_union {q : Query} :
    ∀ (rest : List Query) (u0 : Query), Narrows q u0 →
    (∀ u ∈ rest, Narrows q u) → Narrows q (rest.foldl Query.union u0) := by
  intro rest
  induction rest with
  | nil => intro u0 h0 _; exact h0
  | cons u rest ih =>
    intro u0 h0 hall
    rw [List.foldl_cons]
    exact ih (u0.union u) (narrows_union h0 (hall u (by simp)))
      (fun v hv => hall v (by simp [hv]))

theorem with_path_to_narrows {cc : Bool} {sch : Schema} {db : DB} {q q2 : Query}
    {value : List PathEntry} {union : Bool}
    (h : with_path_to cc sch db q value union = .ok q2) : Narrows q q2 := by
  unfold with_path_to at h
  rcases except_bind_ok.mp h with ⟨st, hst, h⟩
  have hinv : Narrows q st.fst ∧ ∀ u ∈ st.snd, Narrows q u := by
    refine foldlM_inv (fun st => Narrows q st.fst ∧ ∀ u ∈ st.snd, Narrows q u)
      ?_ value (q, []) st ⟨narrows_refl, by intro u hu; exact absurd hu (List.not_mem_nil u)⟩ hst
    intro s entry s2 hs hstep
    dsimp only at hstep
    rcases except_bind_ok.mp hstep with ⟨dt, _, hstep⟩
    split at hstep
    · exact absurd hstep (by simp [throw, throwThe, MonadExceptOf.throw])
    · rcases except_bind_ok.mp hstep with ⟨res, hres, hstep⟩
      have hresn : Narrows q res.fst ∧ Narrows q res.snd := by
        split at hres
        · split at hres
          · rcases except_bind_ok.mp hres with ⟨sq, hsq, hres⟩
            rw [except_pure_ok] at hres
            subst hres
            exact ⟨hs.1, narrows_trans hs.1 (subq_path_narrows hsq)⟩
          · rw [except_pure_ok] at hres
            subst hres
            exact ⟨hs.1, narrows_trans hs.1 narrows_filter⟩
        · split at hres
          · split at hres
            · rcases except_bind_ok.mp hres with ⟨sq, hsq, hres⟩
              rw [except_pure_ok] at hres
              subst hres
              exact ⟨narrows_trans hs.1 narrows_limitNone,
                narrows_trans hs.1 (narrows_trans narrows_limitNone (subq_path_narrows hsq))⟩
            · rw [except_pure_ok] at hres
              subst hres
              exact ⟨narrows_trans hs.1 narrows_limitNone,
                narrows_trans hs.1 (narrows_trans narrows_limitNone narrows_filter)⟩
          · rw [except_pure_ok] at hres
            subst hres
            exact ⟨hs.1, narrows_trans hs.1 narrows_filter⟩
      split at hstep
      · rw [except_pure_ok] at hstep
        subst hstep
        refine ⟨hresn.1, ?_⟩
        intro u hu
        rcases List.mem_append.mp hu with h1 | h1
        · exact hs.2 u h1
        · rw [List.mem_singleton] at h1
          exact h1 ▸ hresn.2
      · rw [except_pure_ok] at hstep
        subst hstep
        exact ⟨hresn.2, hs.2⟩
  dsimp only at h
  split at h
  · split at h
    · rw [except_pure_ok] at h
      exact h ▸ hinv.1
    · rw [except_pure_ok] at h
      subst h
      rename_i hcond u0 rest heq
      exact narrows_foldl_union rest u0 (hinv.2 u0 (heq ▸ by simp))
        (fun u hu => hinv.2 u (heq ▸ by simp [hu]))
  · split at h
    · rw [except_pure_ok] at h
      exact h ▸ narrows_trans hinv.1 narrows_filter
    · rw [except_pure_ok] at h
      exact h ▸ hinv.1

theorem pathEntriesStage_narrows {cc : Bool} {sch : Schema} {db : DB}
    {q q2 : Query} {o : Option Arg} {union : Bool}
    (h : (match o with
          | none => pure q
          | some a => do
            let ms ← pathEntries a
            with_path_to cc sch db q ms union) = Except.ok q2) : Narrows q q2 := by
  cases o with
  | none => rw [except_pure_ok] at h; exact h ▸ narrows_refl
  | some a =>
    rcases except_bind_ok.mp h with ⟨ms, _, h⟩
    exact with_path_to_narrows h

theorem withoutPathStage_narrows {cc : Bool} {sch : Schema} {db : DB}
    {q q2 : Query} {o : Option Arg}
    (h : (match o with
          | none => pure q
          | some a => do
            let ms ← pathEntries a
            let w ← with_path_to cc sch db q ms false
            pure (q.exceptQ w)) = Except.ok q2) : Narrows q q2 := by
  cases o with
  | none => rw [except_pure_ok] at h; exact h ▸ narrows_refl
  | some a =>
    rcases except_bind_ok.mp h with ⟨ms, _, h⟩
    rcases except_bind_ok.mp h with ⟨w, _, h⟩
    rw [except_pure_ok] at h
    exact h ▸ narrows_exceptQ narrows_refl w

theorem filter_project_project_id_narrows {sch : Schema} {db : DB} {q q2 : Query}
    {value : List String} (h : filter_project_project_id sch db q value = .ok q2) :
    Narrows q q2 := by
  unfold filter_project_project_id at h
  rcases except_bind_ok.mp h with ⟨subqs, hsub, h⟩
  have hall : ∀ s, s ∈ subqs → Narrows q s := by
    refine foldlM_inv (fun acc => ∀ s, s ∈ acc → Narrows q s) ?_ _ [] subqs
      (by intro s hs; exact absurd hs (List.not_mem_nil s)) hsub
    intro acc pid acc2 hacc hstep
    dsimp only at hstep
    cases hsp : splitFirstHyphen pid with
    | none =>
      rw [hsp] at hstep
      rw [except_pure_ok] at hstep
      exact hstep ▸ hacc
    | some pr =>
      rw [hsp] at hstep
      rcases except_bind_ok.mp hstep with ⟨qq2, hq2, hstep⟩
      rw [except_pure_ok] at hstep
      subst hstep
      intro s hs
      rcases List.mem_append.mp hs with h1 | h1
      · exact hacc s h1
      · rw [List.mem_singleton] at h1
        subst h1
        have h2 : Narrows q (q.propsFilter "code" (JVal.jstr pr.snd)) := narrows_filter
        exact narrows_trans (narrows_trans h2 (narrows_path1 hq2)) narrows_filter
  split at h
  · rw [except_pure_ok] at h
    exact h ▸ narrows_filter
  · rw [except_pure_ok] at h
    exact h ▸ narrows_selectEntityFrom hall

theorem projIdStage_narrows {sch : Schema} {db : DB} {q q2 : Query} {o : Option Arg}
    (h : (match o with
          | none => pure q
          | some a =>
            if (metaOf sch q.joinClass).label = "project" then do
              let ids ← projIdStrings a
              filter_project_project_id sch db q ids
            else pure q) = Except.ok q2) : Narrows q q2 := by
  split at h
  · rw [except_pure_ok] at h
    exact h ▸ narrows_refl
  · split at h
    · rcases except_bind_ok.mp h with ⟨ids, _, h⟩
      exact filter_project_project_id_narrows h
    · rw [except_pure_ok] at h
      exact h ▸ narrows_refl

theorem applyOrderArg_narrows {sch : Schema} {q q2 : Query} {args : Args}
    {an : String} {desc : Bool} (h : applyOrderArg sch q args an desc = .ok q2) :
    Narrows q q2 := by
  unfold applyOrderArg at h
  split at h
  · rw [except_pure_ok] at h
    exact h ▸ narrows_refl
  · rcases except_bind_ok.mp h with ⟨key, _, h⟩
    split at h
    · rw [except_pure_ok] at h
      subst h
      intro r hr
      exact hr
    · split at h
      · rw [except_pure_ok] at h
        exact h ▸ narrows_refl
      · split at h
        · rw [except_pure_ok] at h
          subst h
          intro r hr
          exact hr
        · exact absurd h (by simp [throw, throwThe, MonadExceptOf.throw])

theorem apply_arg_limit_narrows {q q2 : Query} {args : Args}
    (h : apply_arg_limit q args = .ok q2) : Narrows q q2 := by
  unfold apply_arg_limit at h
  rcases except_bind_ok.mp h with ⟨n, _, h⟩
  split at h
  · rw [except_pure_ok] at h
    subst h
    intro r hr
    exact hr
  · rw [except_pure_ok] at h
    exact h ▸ narrows_refl

theorem apply_arg_offset_narrows {q q2 : Query} {args : Args}
    (h : apply_arg_offset q args = .ok q2) : Narrows q q2 := by
  unfold apply_arg_offset at h
  rcases except_bind_ok.mp h with ⟨n, _, h⟩
  split at h
  · rw [except_pure_ok] at h
    subst h
    intro r hr
    exact hr
  · rw [except_pure_ok] at h
    exact h ▸ narrows_refl

/-- Master soundness lemma: the whole argument-compilation pipeline only
returns base rows of the input query. -/
theorem apply_query_args_narrows {cc : Bool} {sch : Schema} {db : DB}
    {q q2 : Query} {args : Args}
    (h : apply_query_args cc sch db q args = .ok q2) : Narrows q q2 := by
  unfold apply_query_args at h
  rcases except_bind_ok.mp h with ⟨a1, h1, h⟩
  rcases except_bind_ok.mp h with ⟨a2, h2, h⟩
  rcases except_bind_ok.mp h with ⟨a3, h3, h⟩
  rcases except_bind_ok.mp h with ⟨a4, h4, h⟩
  rcases except_bind_ok.mp h with ⟨a5, h5, h⟩
  rcases except_bind_ok.mp h with ⟨a6, h6, h⟩
  rcases except_bind_ok.mp h with ⟨a7, h7, h⟩
  rcases except_bind_ok.mp h with ⟨a8, h8, h⟩
  rcases except_bind_ok.mp h with ⟨a9, h9, h⟩
  rcases except_bind_ok.mp h with ⟨a10, h10, h⟩
  rcases except_bind_ok.mp h with ⟨a11, h11, h⟩
  rcases except_bind_ok.mp h with ⟨a12, h12, h⟩
  rcases except_bind_ok.mp h with ⟨a13, h13, h⟩
  rcases except_bind_ok.mp h with ⟨a14, h14, h⟩
  rcases except_bind_ok.mp h with ⟨a15, h15, h⟩
  rcases except_bind_ok.mp h with ⟨a16, h16, h⟩
  rcases except_bind_ok.mp h with ⟨a17, h17, h⟩
  rcases except_bind_ok.mp h with ⟨a18, h18, h⟩
  rcases except_bind_ok.mp h with ⟨a19, h19, h⟩
  rcases except_bind_ok.mp h with ⟨a20, h20, h⟩
  rcases except_bind_ok.mp h with ⟨a21, h21, h⟩
  rw [except_pure_ok] at h
  subst h
  refine narrows_trans (apply_prop_filters_narrows h1) ?_
  refine narrows_trans (apply_not_filter_narrows h2) ?_
  refine narrows_trans (maybeIdsStage_narrows h3) ?_
  refine narrows_trans (maybeIdsStage_narrows h4) ?_
  refine narrows_trans (apply_submitter_filter_narrows h5) ?_
  refine narrows_trans (maybeQuicksearch_narrows h6) ?_
  refine narrows_trans (applyDateFilter_narrows h7) ?_
  refine narrows_trans (applyDateFilter_narrows h8) ?_
  refine narrows_trans (applyDateFilter_narrows h9) ?_
  refine narrows_trans (applyDateFilter_narrows h10) ?_
  refine narrows_trans (apply_with_links_narrows h11) ?_
  refine narrows_trans (apply_with_links_any_narrows h12) ?_
  refine narrows_trans (apply_without_links_narrows h13) ?_
  refine narrows_trans (pathEntriesStage_narrows h14) ?_
  refine narrows_trans (pathEntriesStage_narrows h15) ?_
  refine narrows_trans (withoutPathStage_narrows h16) ?_
  refine narrows_trans (projIdStage_narrows h17) ?_
  refine narrows_trans (applyOrderArg_narrows h18) ?_
  refine narrows_trans (applyOrderArg_narrows h19) ?_
  refine narrows_trans (narrows_trans narrows_fromSelf (apply_arg_limit_narrows h20)) ?_
  exact apply_arg_offset_narrows h21

-- ====================================================================
-- Identity of the stages whose arguments are absent

theorem except_ok_bind {α β : Type} {a : α} {f : α → Except PyError β} :
    (Except.ok a : Except PyError α) >>= f = f a := rfl

theorem except_pure_eq {α : Type} {a : α} :
    (pure a : Except PyError α) = Except.ok a := rfl

theorem except_bind_pure {α : Type} {x : Except PyError α} :
    (x >>= fun a => (Except.ok a : Except PyError α)) = x := by
  cases x <;> rfl

theorem apply_prop_filters_skip {sch : Schema} {q : Query} {args : Args}
    (h : ∀ kv ∈ args, (metaOf sch q.joinClass).pgProps.find?
      (fun p => p.fst == kv.fst) = none) :
    apply_prop_filters sch q args = .ok q := by
  unfold apply_prop_filters
  dsimp only
  induction args with
  | nil => rfl
  | cons kv args ih =>
    rw [List.foldlM_cons]
    have h1 := h kv (by simp)
    rw [h1]
    show (pure q : Except PyError Query) >>= _ = _
    rw [show ((pure q : Except PyError Query) >>= fun qq =>
      List.foldlM _ qq args) = List.foldlM _ q args from rfl]
    exact ih (fun kv2 h2 => h kv2 (by simp [h2]))

theorem apply_not_filter_skip {sch : Schema} {q : Query} {args : Args}
    (h : argLookup args "not" = none) :
    apply_not_filter sch q args = .ok q := by
  unfold apply_not_filter
  rw [h]
  rfl

theorem apply_submitter_filter_skip {sch : Schema} {q : Query} {args : Args}
    (h : argLookup args "submitter_id" = none) :
    apply_submitter_filter sch q args = .ok q := by
  unfold apply_submitter_filter
  split
  · rw [h]
    rfl
  · rfl

theorem applyDateFilter_skip {q : Query} {args : Args} {an pn : String} {af : Bool}
    (h : argLookup args an = none) :
    applyDateFilter q args an pn af = .ok q := by
  unfold applyDateFilter
  rw [h]
  rfl

theorem apply_with_links_skip {sch : Schema} {db : DB} {q : Query} {args : Args}
    (h : argLookup args "with_links" = none) :
    apply_with_links sch db q args = .ok q := by
  unfold apply_with_links
  rw [h]
  rfl

theorem apply_with_links_any_skip {sch : Schema} {db : DB} {q : Query} {args : Args}
    (h : argLookup args "with_links_any" = none) :
    apply_with_links_any sch db q args = .ok q := by
  unfold apply_with_links_any
  rw [h]
  rfl

theorem apply_without_links_skip {sch : Schema} {db : DB} {q : Query} {args : Args}
    (h : argLookup args "without_links" = none) :
    apply_without_links sch db q args = .ok q := by
  unfold apply_without_links
  rw [h]
  rfl

theorem applyOrderArg_skip {sch : Schema} {q : Query} {args : Args} {an : String}
    {desc : Bool} (h : argLookup args an = none) :
    applyOrderArg sch q args an desc = .ok q := by
  unfold applyOrderArg
  rw [h]
  rfl

/-- When none of the filter arguments is supplied, the pipeline reduces
to the fresh outer wrapping followed by LIMIT and OFFSET. -/
theorem pipeline_only_pagination {cc : Bool} {sch : Schema} {db : DB} {q : Query}
    {args : Args}
    (hprops : ∀ kv ∈ args, (metaOf sch q.joinClass).pgProps.find?
      (fun p => p.fst == kv.fst) = none)
    (h1 : argLookup args "not" = none)
    (h2 : argLookup args "id" = none)
    (h3 : argLookup args "ids" = none)
    (h4 : argLookup args "submitter_id" = none)
    (h5 : argLookup args "quick_search" = none)
    (h6 : argLookup args "created_after" = none)
    (h7 : argLookup args "created_before" = none)
    (h8 : argLookup args "updated_after" = none)
    (h9 : argLookup args "updated_before" = none)
    (h10 : argLookup args "with_links" = none)
    (h11 : argLookup args "with_links_any" = none)
    (h12 : argLookup args "without_links" = none)
    (h13 : argLookup args "with_path_to" = none)
    (h14 : argLookup args "with_path_to_any" = none)
    (h15 : argLookup args "without_path_to" = none)
    (h16 : argLookup args "project_id" = none)
    (h17 : argLookup args "order_by_asc" = none)
    (h18 : argLookup args "order_by_desc" = none) :
    apply_query_args cc sch db q args
      = (apply_arg_limit q.fromSelf args >>= fun qq => apply_arg_offset qq args) := by
  unfold apply_query_args
  simp only [apply_prop_filters_skip hprops, apply_not_filter_skip h1,
    apply_submitter_filter_skip h4, applyDateFilter_skip h6, applyDateFilter_skip h7,
    applyDateFilter_skip h8, applyDateFilter_skip h9, apply_with_links_skip h10,
    apply_with_links_any_skip h11, apply_without_links_skip h12,
    applyOrderArg_skip h17, applyOrderArg_skip h18,
    h2, h3, h5, h13, h14, h15, h16, except_pure_eq, except_ok_bind,
    Option.isSome_none, Bool.false_eq_true, if_false, except_bind_pure]

/-- Executing a fresh materialized query: pagination slices the row
list directly. -/
theorem exec_mk_plain (pr jc : PyClass) (l : List PNode) (ql : Option Nat)
    (qo : Nat) :
    (Query.mk pr jc (mkCtxRows l) ql qo []).exec
      = (match ql with
         | none => l.drop qo
         | some kk => (l.drop qo).take kk) := by
  unfold Query.exec Query.sortedRows
  simp only [List.isEmpty_nil, if_true]
  have hb : (mkCtxRows l).map (·.base) = l := bases_mkCtxRows
  rw [hb]

-- ====================================================================
-- Concrete fixtures shared by witnesses and counterexamples

def schCase : Schema := [
  { label := "case",
    pgProps := [("submitter_id", FieldType.strT), ("project_id", FieldType.strT),
      ("codes", FieldType.listT), ("flag", FieldType.boolT),
      ("state", FieldType.strT)],
    hasProjectId := true, pgLinks := [("projects", "project")],
    pgEdges := [("projects", "project")], shortcuts := [] },
  { label := "project",
    pgProps := [("code", FieldType.strT), ("state", FieldType.strT)],
    hasProjectId := false, pgLinks := [("programs", "program")],
    pgEdges := [("programs", "program")], shortcuts := [] },
  { label := "program", pgProps := [("name", FieldType.strT)],
    hasProjectId := false, pgLinks := [], pgEdges := [], shortcuts := [] }]

-- ====================================================================
-- C5

def rLongC5 : PNode :=
  { node_id := "ab12-x", label := "case",
    props := [("submitter_id", JVal.jstr "zz-very-long-submitter-identifier-zz")] }

def rShortC5 : PNode :=
  { node_id := "node2", label := "case",
    props := [("submitter_id", JVal.jstr "sample-AB12-long")] }

def dbC5 : DB := { nodes := [rLongC5, rShortC5], edges := [] }

/-- C5: quick_search unions the id and submitter-id substring matches,
but the claimed ordering by submitter-id length ascending is NOT
applied: the source calls q.order_by without assigning the result
(node.py line 211), so on the spec scenario (phrase AB12, id
ab12-x, submitter_id sample-AB12-long) both rows are returned in the
underlying order, with the longer submitter id first. -/
theorem c5_quicksearch_order_not_applied :
    (apply_arg_quicksearch (dbNodes dbC5 (PyClass.cls "case"))
        [("quick_search", Arg.one (PyVal.vstr "AB12"))]).map Query.exec
      = Except.ok [rLongC5, rShortC5]
    ∧ (astext (JVal.jstr "zz-very-long-submitter-identifier-zz")).length
        > (astext (JVal.jstr "sample-AB12-long")).length := by
  exact ⟨by rfl, by decide⟩

-- ====================================================================
-- C6

def nC6 : PNode :=
  { node_id := "n1", label := "case",
    props := [("project_id", JVal.jstr "p1")] }

def dbC6 : DB := { nodes := [nC6], edges := [] }

/-- C6: a with_path_to filter whose source query is over the untyped
supertype is NOT rejected: the guard in the source compares the query
entity with the module-level name Node, which is the graphene Node
interface class, never a query entity, so the call returns a query
instead of raising the advertised RuntimeError. -/
theorem c6_supertype_traversal_not_rejected :
    (with_path_to true schCase dbC6 (dbNodes dbC6 PyClass.node)
        [[("type", SArg.one (PyVal.vstr "case"))]] false).isOk = true := by
  rfl

-- ====================================================================
-- C7

theorem except_bind_congr {α β : Type} {x : Except PyError α}
    {f g : α → Except PyError β} (h : ∀ a, f a = g a) :
    (x >>= f) = (x >>= g) := by
  cases x with
  | error e => rfl
  | ok a => exact h a

/-- A monadic fold ignores exactly the elements its step treats as
no-ops. -/
theorem foldlM_filter_skip {σ α : Type} {f : σ → α → Except PyError σ}
    {p : α → Bool} (hskip : ∀ s a, p a = false → f s a = pure s) :
    ∀ (l : List α) (s : σ),
      List.foldlM f s l = List.foldlM f s (l.filter p) := by
  intro l
  induction l with
  | nil => intro s; rfl
  | cons a l ih =>
    intro s
    rw [List.foldlM_cons]
    cases hp : p a with
    | true =>
      rw [List.filter_cons_of_pos hp, List.foldlM_cons]
      exact except_bind_congr (fun s2 => ih s2)
    | false =>
      rw [hskip s a hp, List.filter_cons_of_neg (by simp [hp])]
      rw [except_pure_eq, except_ok_bind]
      exact ih s

def prC7 : PNode :=
  { node_id := "pr1", label := "project",
    props := [("code", JVal.jstr "p1")] }

def dbC7 : DB := { nodes := [prC7], edges := [] }

/-- C7 counterexample: a composite id with no hyphen is not reported to
the caller as a request failure; the filter returns successfully, with
zero rows. -/
theorem c7_counterexample :
    (filter_project_project_id schCase dbC7
        (dbNodes dbC7 (PyClass.cls "project")) ["noHyphen"]).map Query.exec
      = Except.ok [] := by
  rfl

/-- C7 amended: a project_id composite value that cannot be split on a
hyphen is silently dropped (the filter behaves exactly as if only the
well-formed values had been given); when every value is malformed no
error is raised and the compiled filter is the always-false predicate,
returning zero rows. -/
theorem c7_amended (sch : Schema) (db : DB) (q : Query) (vals : List String) :
    filter_project_project_id sch db q vals
      = filter_project_project_id sch db q
          (vals.filter (fun v => (splitFirstHyphen v).isSome))
    ∧ ((∀ v ∈ vals, splitFirstHyphen v = none) →
        filter_project_project_id sch db q vals
          = Except.ok (q.filter (fun _ => false))
        ∧ (filter_project_project_id sch db q vals).map Query.rows
            = Except.ok []) := by
  have hskip : ∀ (s : List Query) (a : String),
      ((splitFirstHyphen a).isSome : Bool) = false →
      (fun (acc : List Query) project_id =>
        match splitFirstHyphen project_id with
        | none => pure acc
        | some pr => do
          let q1 := q.propsFilter "code" (JVal.jstr pr.snd)
          let q2 ← path1 sch db q1 "programs"
          let q3 : Query := q2.propsFilter "name" (JVal.jstr pr.fst)
          pure (acc ++ [q3])) s a = pure s := by
    intro s a ha
    cases hsp : splitFirstHyphen a with
    | none => simp only [hsp]
    | some pr => rw [hsp] at ha; exact absurd ha (by simp)
  have hmain : filter_project_project_id sch db q vals
      = filter_project_project_id sch db q
          (vals.filter (fun v => (splitFirstHyphen v).isSome)) := by
    unfold filter_project_project_id
    rw [foldlM_filter_skip hskip vals []]
  refine ⟨hmain, ?_⟩
  intro hall
  have hnil : vals.filter (fun v => (splitFirstHyphen v).isSome) = [] := by
    rw [List.filter_eq_nil_iff]
    intro v hv
    simp [hall v hv]
  rw [hmain, hnil]
  constructor
  · rfl
  · rw [show filter_project_project_id sch db q []
        = Except.ok (q.filter (fun _ => false)) from rfl]
    show Except.ok ((q.filter (fun _ => false)).rows) = Except.ok []
    rw [show (q.filter (fun _ => false)).rows
        = q.rows.filter (fun _ => false) from rfl]
    rw [List.filter_false]

/-- C7 amended, applied: the single malformed value noHyphen yields the
always-false filter with zero rows, with no failure raised. -/
theorem c7_amended_witness :
    filter_project_project_id schCase dbC7
        (dbNodes dbC7 (PyClass.cls "project")) ["noHyphen"]
      = Except.ok ((dbNodes dbC7 (PyClass.cls "project")).filter (fun _ => false))
    ∧ (filter_project_project_id schCase dbC7
        (dbNodes dbC7 (PyClass.cls "project")) ["noHyphen"]).map Query.rows
      = Except.ok [] :=
  (c7_amended schCase dbC7 (dbNodes dbC7 (PyClass.cls "project"))
    ["noHyphen"]).2 (by decide)

-- ====================================================================
-- C8

/-- C8: a batch-eligible count request (scoped class, not the project
class, exactly the project_id argument, a single scope key) whose scope
key is not among the readable projects resolves immediately to the
scalar zero and adds nothing to the pool. -/
theorem c8_unpermitted_count_is_zero (readProjects : List String)
    (sch : Schema) (cl : PyClass) (a : Arg) (pid : String)
    (st : NodeCounterState)
    (hscoped : cl = PyClass.node ∨ (metaOf sch cl).hasProjectId = true)
    (hnp : (metaOf sch cl).label ≠ "project")
    (hpid : extractPid a = some pid)
    (hperm : readProjects.contains pid = false) :
    NodeCounter.add_count readProjects sch cl [("project_id", a)] st
      = (AddCountResult.zero, st) := by
  unfold NodeCounter.add_count
  rw [if_neg, if_neg hnp, if_neg (by simp)]
  · rw [show argLookup [("project_id", a)] "project_id" = some a from rfl]
    show (match extractPid a with
      | none => (AddCountResult.noneR, st)
      | some project_id =>
        if ¬ readProjects.contains project_id then (AddCountResult.zero, st)
        else
          let found := st.projectIds.find? (fun p => p.fst == project_id)
          let pname :=
            (match found with
             | some p => p.snd
             | none => "p_" ++ toString st.projectIds.length)
          let st1 :=
            (match found with
             | some _ => st
             | none => { st with projectIds := st.projectIds ++ [(project_id, pname)] })
          let key := "c_" ++ toString st1.queries.length
          (AddCountResult.promise key,
            { st1 with queries := st1.queries ++ [(key, (metaOf sch cl).label, pname)] }))
      = (AddCountResult.zero, st)
    rw [hpid]
    have hnm : pid ∉ readProjects := by
      intro hm
      have h2 : readProjects.contains pid = true := List.elem_eq_true_of_mem hm
      rw [hperm] at h2
      exact Bool.false_ne_true h2
    simp [hnm]
  · rcases hscoped with h | h
    · intro hc; exact hc.1 h
    · intro hc; exact hc.2 (by simp [h])

/-- C8 applied at a concrete unpermitted scope key. -/
theorem c8_witness :
    NodeCounter.add_count ["p1"] schCase (PyClass.cls "case")
        [("project_id", Arg.one (PyVal.vstr "p2"))]
        { projectIds := [], queries := [] }
      = (AddCountResult.zero, { projectIds := [], queries := [] }) :=
  c8_unpermitted_count_is_zero ["p1"] schCase (PyClass.cls "case")
    (Arg.one (PyVal.vstr "p2")) "p2" { projectIds := [], queries := [] }
    (by decide) (by decide) (by decide) (by decide)

-- ====================================================================
-- C9

def rA9 : PNode := { node_id := "a", label := "case", props := [] }
def rB9 : PNode := { node_id := "b", label := "case", props := [] }
def rC9 : PNode := { node_id := "c", label := "case", props := [] }

def dbC9 : DB := { nodes := [rA9, rB9, rC9], edges := [] }

/-- C9 counterexample: with three rows, first=2 and offset=1 the code
returns TWO rows (SQL applies OFFSET before LIMIT), not the one row
that skipping one row of the already-capped result would leave. -/
theorem c9_counterexample :
    (apply_query_args true schCase dbC9 (dbNodes dbC9 (PyClass.cls "case"))
        [("first", Arg.one (PyVal.vint 2)),
         ("offset", Arg.one (PyVal.vint 1))]).map Query.exec
      = Except.ok [rB9, rC9]
    ∧ [rB9, rC9] ≠ List.drop 1 (List.take 2 [rA9, rB9, rC9]) := by
  exact ⟨by rfl, by decide⟩

/-- Computing the pagination tail of the pipeline: the offset skips
rows first, the cap is applied to what remains. -/
theorem limit_offset_exec (q : Query) (args : Args) (k m : Int)
    (hl : q.qlimit = none) (ho : q.qoffset = 0) (hord : q.ordering = [])
    (hk : getIntArg args "first" DEFAULT_LIMIT = pure k)
    (hm : getIntArg args "offset" 0 = pure m) :
    ((apply_arg_limit q.fromSelf args >>= fun qq => apply_arg_offset qq args).map
        Query.exec)
      = Except.ok
          (if 0 < k then (q.bases.drop (if 0 < m then m.toNat else 0)).take k.toNat
           else q.bases.drop (if 0 < m then m.toNat else 0)) := by
  unfold apply_arg_limit apply_arg_offset
  rw [hk, hm, except_pure_eq, except_ok_bind]
  have hfs : q.fromSelf
      = Query.mk q.primary q.primary (mkCtxRows q.bases) none 0 [] := by
    unfold Query.fromSelf
    rw [exec_eq_bases hl ho hord]
  by_cases hkpos : 0 < k
  · rw [if_pos hkpos]
    rw [except_pure_eq, except_ok_bind, except_pure_eq, except_ok_bind]
    by_cases hmpos : 0 < m
    · rw [if_pos hmpos, if_pos hkpos, if_pos hmpos]
      rw [show ((q.fromSelf.limitTo k.toNat).offsetTo m.toNat)
          = Query.mk q.primary q.primary (mkCtxRows q.bases)
              (some k.toNat) m.toNat [] from by
        rw [Query.limitTo, Query.offsetTo, hfs]]
      rw [except_pure_eq]
      rw [show Except.map Query.exec (Except.ok (Query.mk q.primary q.primary
          (mkCtxRows q.bases) (some k.toNat) m.toNat []))
        = Except.ok ((Query.mk q.primary q.primary (mkCtxRows q.bases)
            (some k.toNat) m.toNat []).exec) from rfl]
      rw [exec_mk_plain]
    · rw [if_neg hmpos, if_pos hkpos, if_neg hmpos]
      rw [show (q.fromSelf.limitTo k.toNat)
          = Query.mk q.primary q.primary (mkCtxRows q.bases)
              (some k.toNat) 0 [] from by
        rw [Query.limitTo, hfs]]
      rw [except_pure_eq]
      rw [show Except.map Query.exec (Except.ok (Query.mk q.primary q.primary
          (mkCtxRows q.bases) (some k.toNat) 0 []))
        = Except.ok ((Query.mk q.primary q.primary (mkCtxRows q.bases)
            (some k.toNat) 0 []).exec) from rfl]
      rw [exec_mk_plain]
  · rw [if_neg hkpos]
    rw [except_pure_eq, except_ok_bind, except_pure_eq, except_ok_bind]
    by_cases hmpos : 0 < m
    · rw [if_pos hmpos, if_neg hkpos, if_pos hmpos]
      rw [show (q.fromSelf.offsetTo m.toNat)
          = Query.mk q.primary q.primary (mkCtxRows q.bases)
              none m.toNat [] from by
        rw [Query.offsetTo, hfs]]
      rw [except_pure_eq]
      rw [show Except.map Query.exec (Except.ok (Query.mk q.primary q.primary
          (mkCtxRows q.bases) none m.toNat []))
        = Except.ok ((Query.mk q.primary q.primary (mkCtxRows q.bases)
            none m.toNat []).exec) from rfl]
      rw [exec_mk_plain]
    · rw [if_neg hmpos, if_neg hkpos, if_neg hmpos]
      rw [hfs]
      rw [except_pure_eq]
      rw [show Except.map Query.exec (Except.ok (Query.mk q.primary q.primary
          (mkCtxRows q.bases) none 0 []))
        = Except.ok ((Query.mk q.primary q.primary (mkCtxRows q.bases)
            none 0 []).exec) from rfl]
      rw [exec_mk_plain]

/-- C9 amended: when first is unset the default cap of ten rows
applies; first = k positive caps the rows at k; first zero or negative
means no cap; and offset = m skips the first m rows BEFORE the cap is
applied (SQL LIMIT/OFFSET on the freshly wrapped result), so the rows
returned are the cap applied to what remains after the skip, not a
skip inside the already-capped rows. -/
theorem c9_amended (cc : Bool) (sch : Schema) (db : DB) (q : Query) (k m : Int)
    (hl : q.qlimit = none) (ho : q.qoffset = 0) (hord : q.ordering = [])
    (hf : (metaOf sch q.joinClass).pgProps.find? (fun p => p.fst == "first") = none)
    (hof : (metaOf sch q.joinClass).pgProps.find? (fun p => p.fst == "offset") = none) :
    ((apply_query_args cc sch db q
        [("first", Arg.one (PyVal.vint k)), ("offset", Arg.one (PyVal.vint m))]).map
        Query.exec
      = Except.ok
          (if 0 < k then (q.bases.drop (if 0 < m then m.toNat else 0)).take k.toNat
           else q.bases.drop (if 0 < m then m.toNat else 0)))
    ∧ ((apply_query_args cc sch db q
        [("offset", Arg.one (PyVal.vint m))]).map Query.exec
      = Except.ok ((q.bases.drop (if 0 < m then m.toNat else 0)).take 10)) := by
  constructor
  · have hp : ∀ kv ∈ ([("first", Arg.one (PyVal.vint k)),
        ("offset", Arg.one (PyVal.vint m))] : Args),
        (metaOf sch q.joinClass).pgProps.find? (fun p => p.fst == kv.fst) = none := by
      intro kv hkv
      rcases List.mem_cons.mp hkv with h | h
      · rw [h]; exact hf
      · rw [List.mem_singleton] at h
        rw [h]; exact hof
    rw [@pipeline_only_pagination cc sch db q
        [("first", Arg.one (PyVal.vint k)), ("offset", Arg.one (PyVal.vint m))]
        hp rfl rfl rfl rfl rfl rfl rfl rfl rfl rfl rfl rfl rfl rfl rfl rfl rfl rfl]
    exact limit_offset_exec q _ k m hl ho hord rfl rfl
  · have hp2 : ∀ kv ∈ ([("offset", Arg.one (PyVal.vint m))] : Args),
        (metaOf sch q.joinClass).pgProps.find? (fun p => p.fst == kv.fst) = none := by
      intro kv hkv
      rw [List.mem_singleton] at hkv
      rw [hkv]; exact hof
    rw [@pipeline_only_pagination cc sch db q
        [("offset", Arg.one (PyVal.vint m))]
        hp2 rfl rfl rfl rfl rfl rfl rfl rfl rfl rfl rfl rfl rfl rfl rfl rfl rfl rfl]
    have h10 := limit_offset_exec q [("offset", Arg.one (PyVal.vint m))] 10 m
      hl ho hord rfl rfl
    rw [h10]
    rw [if_pos (by decide)]
    rfl

/-- C9 amended applied at the counterexample input. -/
theorem c9_amended_witness :
    (apply_query_args true schCase dbC9 (dbNodes dbC9 (PyClass.cls "case"))
        [("first", Arg.one (PyVal.vint 2)),
         ("offset", Arg.one (PyVal.vint 1))]).map Query.exec
      = Except.ok [rB9, rC9] := by
  have h := (c9_amended true schCase dbC9 (dbNodes dbC9 (PyClass.cls "case")) 2 1
    rfl rfl rfl rfl rfl).1
  rw [h]
  rfl

-- ====================================================================
-- C10

/-- Unwrap a query computation known to succeed. -/
def okOr (x : Except PyError Query) (d : Query) : Query :=
  match x with
  | .ok q => q
  | .error _ => d

theorem filter_preserves_classes {q : Query} {p : Ctx → Bool} :
    (q.filter p).primary = q.primary ∧ (q.filter p).joinClass = q.joinClass :=
  ⟨rfl, rfl⟩

theorem apply_prop_filters_preserves {sch : Schema} {q q2 : Query} {args : Args}
    (h : apply_prop_filters sch q args = .ok q2) :
    q2.primary = q.primary ∧ q2.joinClass = q.joinClass := by
  unfold apply_prop_filters at h
  refine foldlM_inv (fun s => s.primary = q.primary ∧ s.joinClass = q.joinClass)
    ?_ args q q2 ⟨rfl, rfl⟩ h
  intro s kv s2 hs hstep
  dsimp only at hstep
  split at hstep
  · rw [except_pure_ok] at hstep
    exact hstep ▸ hs
  · rcases except_bind_ok.mp hstep with ⟨val, _, hstep⟩
    split at hstep
    · rcases except_bind_ok.mp hstep with ⟨pats, _, hstep⟩
      rw [except_pure_ok] at hstep
      exact hstep ▸ hs
    · rw [except_pure_ok] at hstep
      exact hstep ▸ hs

theorem apply_not_filter_preserves {sch : Schema} {q q2 : Query} {args : Args}
    (h : apply_not_filter sch q args = .ok q2) :
    q2.primary = q.primary ∧ q2.joinClass = q.joinClass := by
  unfold apply_not_filter at h
  split at h
  · rw [except_pure_ok] at h
    exact h ▸ ⟨rfl, rfl⟩
  · rcases except_bind_ok.mp h with ⟨notProps, _, h⟩
    refine foldlM_inv (fun s => s.primary = q.primary ∧ s.joinClass = q.joinClass)
      ?_ notProps q q2 ⟨rfl, rfl⟩ h
    intro s kv s2 hs hstep
    dsimp only at hstep
    split at hstep
    · rw [except_pure_ok] at hstep
      exact hstep ▸ hs
    · rw [except_pure_ok] at hstep
      exact hstep ▸ hs
  · exact absurd h (by simp [throw, throwThe, MonadExceptOf.throw])

/-- C10: supplying both the id and the ids arguments applies both
id-set membership filters conjunctively: every row the compiled query
returns has its id in BOTH sets, so disjoint sets return zero rows. -/
theorem c10_id_ids_conjunction (cc : Bool) (sch : Schema) (db : DB)
    (q q2 : Query) (args : Args) (A B : List PyVal)
    (hjc : q.joinClass = q.primary)
    (hA : argLookup args "id" = some (Arg.many A))
    (hB : argLookup args "ids" = some (Arg.many B))
    (h : apply_query_args cc sch db q args = .ok q2) :
    (∀ r ∈ q2.exec, (A.map pyStr).contains r.node_id = true
        ∧ (B.map pyStr).contains r.node_id = true)
    ∧ ((∀ s, ¬ ((A.map pyStr).contains s = true
          ∧ (B.map pyStr).contains s = true)) → q2.exec = []) := by
  unfold apply_query_args at h
  rcases except_bind_ok.mp h with ⟨a1, h1, h⟩
  rcases except_bind_ok.mp h with ⟨a2, h2, h⟩
  rcases except_bind_ok.mp h with ⟨a3, h3, h⟩
  rcases except_bind_ok.mp h with ⟨a4, h4, h⟩
  rcases except_bind_ok.mp h with ⟨a5, h5, h⟩
  rcases except_bind_ok.mp h with ⟨a6, h6, h⟩
  rcases except_bind_ok.mp h with ⟨a7, h7, h⟩
  rcases except_bind_ok.mp h with ⟨a8, h8, h⟩
  rcases except_bind_ok.mp h with ⟨a9, h9, h⟩
  rcases except_bind_ok.mp h with ⟨a10, h10, h⟩
  rcases except_bind_ok.mp h with ⟨a11, h11, h⟩
  rcases except_bind_ok.mp h with ⟨a12, h12, h⟩
  rcases except_bind_ok.mp h with ⟨a13, h13, h⟩
  rcases except_bind_ok.mp h with ⟨a14, h14, h⟩
  rcases except_bind_ok.mp h with ⟨a15, h15, h⟩
  rcases except_bind_ok.mp h with ⟨a16, h16, h⟩
  rcases except_bind_ok.mp h with ⟨a17, h17, h⟩
  rcases except_bind_ok.mp h with ⟨a18, h18, h⟩
  rcases except_bind_ok.mp h with ⟨a19, h19, h⟩
  rcases except_bind_ok.mp h with ⟨a20, h20, h⟩
  rcases except_bind_ok.mp h with ⟨a21, h21, h⟩
  rw [except_pure_ok] at h
  subst h
  have hp1 := apply_prop_filters_preserves h1
  have hp2 := apply_not_filter_preserves h2
  -- stage 3: the id filter
  rw [hA] at h3
  have ha3 : a3 = a2.filterIdsList (A.map pyStr) := by
    unfold applyIdsArg at h3
    rw [except_pure_ok] at h3
    exact h3.symm
  -- stage 4: the ids filter
  rw [hB] at h4
  have ha4 : a4 = a3.filterIdsList (B.map pyStr) := by
    unfold applyIdsArg at h4
    rw [except_pure_ok] at h4
    exact h4.symm
  have hjc2 : a2.joinClass = a2.primary := by
    rw [hp2.2, hp2.1, hp1.2, hp1.1, hjc]
  have hjc3 : a3.joinClass = a3.primary := by
    rw [ha3]
    exact hjc2
  -- every row context surviving stage 4 satisfies both memberships
  have hmem : ∀ c ∈ a4.rows,
      (A.map pyStr).contains c.base.node_id = true
      ∧ (B.map pyStr).contains c.base.node_id = true := by
    intro c hc
    rw [ha4] at hc
    unfold Query.filterIdsList at hc
    rw [Query.filter] at hc
    have hc4 := List.mem_filter.mp hc
    have hcB := hc4.2
    have hc3 : c ∈ a3.rows := hc4.1
    rw [ha3] at hc3
    unfold Query.filterIdsList at hc3
    rw [Query.filter] at hc3
    have hc3f := List.mem_filter.mp hc3
    have hcA := hc3f.2
    have hres3 : Query.entityRow a3 c = some c.base := by
      unfold Query.entityRow Ctx.resolveCls
      rw [hjc3, if_pos rfl]
    rw [hres3] at hcB
    have hresA : Query.entityRow a2 c = some c.base := by
      unfold Query.entityRow Ctx.resolveCls
      rw [hjc2, if_pos rfl]
    rw [hresA] at hcA
    exact ⟨hcA, hcB⟩
  -- the rest of the pipeline narrows
  have hnarrow : Narrows a4 a21 := by
    refine narrows_trans (apply_submitter_filter_narrows h5) ?_
    refine narrows_trans (maybeQuicksearch_narrows h6) ?_
    refine narrows_trans (applyDateFilter_narrows h7) ?_
    refine narrows_trans (applyDateFilter_narrows h8) ?_
    refine narrows_trans (applyDateFilter_narrows h9) ?_
    refine narrows_trans (applyDateFilter_narrows h10) ?_
    refine narrows_trans (apply_with_links_narrows h11) ?_
    refine narrows_trans (apply_with_links_any_narrows h12) ?_
    refine narrows_trans (apply_without_links_narrows h13) ?_
    refine narrows_trans (pathEntriesStage_narrows h14) ?_
    refine narrows_trans (pathEntriesStage_narrows h15) ?_
    refine narrows_trans (withoutPathStage_narrows h16) ?_
    refine narrows_trans (projIdStage_narrows h17) ?_
    refine narrows_trans (applyOrderArg_narrows h18) ?_
    refine narrows_trans (applyOrderArg_narrows h19) ?_
    refine narrows_trans (narrows_trans narrows_fromSelf (apply_arg_limit_narrows h20)) ?_
    exact apply_arg_offset_narrows h21
  have hpart1 : ∀ r ∈ a21.exec, (A.map pyStr).contains r.node_id = true
      ∧ (B.map pyStr).contains r.node_id = true := by
    intro r hr
    have hb := hnarrow r (mem_exec_sub r hr)
    rcases mem_bases.mp hb with ⟨c, hc, hcb⟩
    have := hmem c hc
    rw [hcb] at this
    exact this
  refine ⟨hpart1, ?_⟩
  intro hdisj
  rw [List.eq_nil_iff_forall_not_mem]
  intro r hr
  exact hdisj r.node_id (hpart1 r hr)

def dbC10 : DB := { nodes := [rA9, rB9, rC9], edges := [] }

def argsC10 : Args :=
  [("id", Arg.many [PyVal.vstr "a", PyVal.vstr "b"]),
   ("ids", Arg.many [PyVal.vstr "b", PyVal.vstr "c"])]

def q2C10 : Query :=
  okOr (apply_query_args true schCase dbC10 (dbNodes dbC10 (PyClass.cls "case"))
    argsC10) (dbNodes dbC10 (PyClass.cls "case"))

/-- C10 applied: id in both given sets for every returned row. -/
theorem c10_witness :
    (∀ r ∈ q2C10.exec,
        (([PyVal.vstr "a", PyVal.vstr "b"].map pyStr).contains r.node_id = true)
        ∧ (([PyVal.vstr "b", PyVal.vstr "c"].map pyStr).contains r.node_id = true))
    ∧ ((∀ s, ¬ ((([PyVal.vstr "a", PyVal.vstr "b"].map pyStr).contains s = true)
          ∧ (([PyVal.vstr "b", PyVal.vstr "c"].map pyStr).contains s = true))) →
        q2C10.exec = []) :=
  c10_id_ids_conjunction true schCase dbC10 (dbNodes dbC10 (PyClass.cls "case"))
    q2C10 argsC10 [PyVal.vstr "a", PyVal.vstr "b"] [PyVal.vstr "b", PyVal.vstr "c"]
    rfl rfl rfl rfl

-- ====================================================================
-- C4

theorem mem_exec_exceptQ {q w : Query} {r : PNode} :
    r ∈ (q.exceptQ w).exec ↔ r ∈ q.exec ∧ ¬ r ∈ w.exec := by
  have hx : (q.exceptQ w).exec = (q.exceptQ w).bases :=
    exec_eq_bases rfl rfl rfl
  rw [hx]
  unfold Query.exceptQ
  rw [mem_bases_mkCtx, List.mem_filter]
  rw [List.mem_dedup]
  constructor
  · rintro ⟨h1, h2⟩
    exact ⟨h1, of_decide_eq_true h2⟩
  · rintro ⟨h1, h2⟩
    exact ⟨h1, decide_eq_true h2⟩

/-- C4: without_path_to is compiled as the EXCEPT of the base query
with the with_path_to subquery over the same specs (node.py lines
334 to 338), so the two result sets are disjoint and together they are
exactly the rows of the base query. -/
theorem c4_partition (cc : Bool) (sch : Schema) (db : DB) (q w : Query)
    (X : List PathEntry)
    (hl : q.qlimit = none) (ho : q.qoffset = 0)
    (hw : with_path_to cc sch db q X false = .ok w) :
    ∀ r, (r ∈ q.exec ↔ (r ∈ w.exec ∨ r ∈ (q.exceptQ w).exec))
      ∧ ¬ (r ∈ w.exec ∧ r ∈ (q.exceptQ w).exec) := by
  intro r
  have hwsub : ∀ r2, r2 ∈ w.exec → r2 ∈ q.exec := by
    intro r2 h2
    exact (mem_exec_iff hl ho r2).mpr
      (with_path_to_narrows hw r2 (mem_exec_sub r2 h2))
  constructor
  · constructor
    · intro hq
      by_cases hrw : r ∈ w.exec
      · exact Or.inl hrw
      · exact Or.inr (mem_exec_exceptQ.mpr ⟨hq, hrw⟩)
    · intro hor
      rcases hor with h1 | h1
      · exact hwsub r h1
      · exact (mem_exec_exceptQ.mp h1).1
  · rintro ⟨h1, h2⟩
    exact (mem_exec_exceptQ.mp h2).2 h1

def sSampleC4 : PNode := { node_id := "s1", label := "sample", props := [] }

def sOrphanC4 : PNode := { node_id := "s2", label := "sample", props := [] }

def cCaseC4 : PNode := { node_id := "c1", label := "case", props := [] }

def dbC4 : DB :=
  { nodes := [sSampleC4, sOrphanC4, cCaseC4],
    edges := [{ src := "s1", link := "cases", dst := "c1" }] }

def xC4 : List PathEntry := [[("type", SArg.one (PyVal.vstr "case"))]]

def wC4 : Query :=
  okOr (with_path_to false schCase dbC4 (dbNodes dbC4 (PyClass.cls "sample"))
    xC4 false) (dbNodes dbC4 (PyClass.cls "sample"))

/-- C4 applied at a concrete graph and spec, at the row that has the
path. -/
theorem c4_witness :
    (sSampleC4 ∈ (dbNodes dbC4 (PyClass.cls "sample")).exec
      ↔ (sSampleC4 ∈ wC4.exec
          ∨ sSampleC4 ∈ ((dbNodes dbC4 (PyClass.cls "sample")).exceptQ wC4).exec))
    ∧ ¬ (sSampleC4 ∈ wC4.exec
          ∧ sSampleC4 ∈ ((dbNodes dbC4 (PyClass.cls "sample")).exceptQ wC4).exec) :=
  c4_partition false schCase dbC4 (dbNodes dbC4 (PyClass.cls "sample")) wC4 xC4
    rfl rfl rfl sSampleC4

-- ====================================================================
-- C2

/-- A project row matches one split composite id when its code property
equals the project code and a programs edge leads to a program row
whose name property equals the program name. -/
def matchesSplitPid (db : DB) (dlbl : String) (r : PNode)
    (pr2 : String × String) : Prop :=
  propsContain r "code" (JVal.jstr pr2.snd) = true
  ∧ ∃ e ∈ db.edges, e.src = r.node_id ∧ e.link = "programs"
      ∧ ∃ p ∈ db.nodes, p.node_id = e.dst ∧ p.label = dlbl
          ∧ propsContain p "name" (JVal.jstr pr2.fst) = true

/-- The per-value subquery of filter_project_project_id, with the path
join resolved (total because the lookup is supplied as a hypothesis
when it is used). -/
def projSubq (sch : Schema) (db : DB) (q : Query) (pr2 : String × String) : Query :=
  (okOr (path1 sch db (q.propsFilter "code" (JVal.jstr pr2.snd)) "programs") q).propsFilter
    "name" (JVal.jstr pr2.fst)

/-- One optional subquery per composite id value. -/
def mkProjSubq (sch : Schema) (db : DB) (q : Query) (pid : String) : Option Query :=
  (splitFirstHyphen pid).map (fun pr2 => projSubq sch db q pr2)

theorem path1_programs_ok (sch : Schema) (db : DB) (q : Query) (dlbl : String)
    (hjc : q.joinClass = q.primary) (hpr : q.primary = PyClass.cls "project")
    (hpl : (metaOf sch (PyClass.cls "project")).pgLinks.find?
      (fun p => p.fst == "programs") = some ("programs", dlbl))
    (v : String) :
    path1 sch db (q.propsFilter "code" (JVal.jstr v)) "programs"
      = .ok (okOr (path1 sch db (q.propsFilter "code" (JVal.jstr v)) "programs") q) := by
  unfold path1
  rw [show (metaOf sch (q.propsFilter "code" (JVal.jstr v)).joinClass).pgLinks.find?
      (fun p => p.fst == "programs") = some ("programs", dlbl) from by
    rw [show (q.propsFilter "code" (JVal.jstr v)).joinClass = q.joinClass from rfl,
      hjc, hpr]
    exact hpl]
  rfl

theorem fppi_fold_subqs (sch : Schema) (db : DB) (q : Query) (dlbl : String)
    (hjc : q.joinClass = q.primary) (hpr : q.primary = PyClass.cls "project")
    (hpl : (metaOf sch (PyClass.cls "project")).pgLinks.find?
      (fun p => p.fst == "programs") = some ("programs", dlbl)) :
    ∀ (vals : List String) (acc : List Query),
      List.foldlM (fun (acc : List Query) project_id =>
        match splitFirstHyphen project_id with
        | none => pure acc
        | some pr => do
          let q1 := q.propsFilter "code" (JVal.jstr pr.snd)
          let q2 ← path1 sch db q1 "programs"
          let q3 : Query := q2.propsFilter "name" (JVal.jstr pr.fst)
          pure (acc ++ [q3])) acc vals
      = .ok (acc ++ vals.filterMap (mkProjSubq sch db q)) := by
  intro vals
  induction vals with
  | nil =>
    intro acc
    rw [List.filterMap_nil, List.append_nil]
    rfl
  | cons pid vals ih =>
    intro acc
    rw [List.foldlM_cons]
    cases hsp : splitFirstHyphen pid with
    | none =>
      dsimp only
      rw [except_pure_eq, except_ok_bind]
      rw [show (pid :: vals).filterMap (mkProjSubq sch db q)
          = vals.filterMap (mkProjSubq sch db q) from by
        rw [List.filterMap_cons]
        rw [show mkProjSubq sch db q pid = none from by
          unfold mkProjSubq
          rw [hsp]
          rfl]]
      exact ih acc
    | some pr2 =>
      dsimp only
      rw [path1_programs_ok sch db q dlbl hjc hpr hpl pr2.snd]
      rw [except_ok_bind, except_pure_eq, except_ok_bind]
      rw [show (pid :: vals).filterMap (mkProjSubq sch db q)
          = projSubq sch db q pr2
              :: vals.filterMap (mkProjSubq sch db q) from by
        rw [List.filterMap_cons]
        rw [show mkProjSubq sch db q pid = some (projSubq sch db q pr2) from by
          unfold mkProjSubq
          rw [hsp]
          rfl]]
      rw [show acc ++ projSubq sch db q pr2 :: vals.filterMap (mkProjSubq sch db q)
          = (acc ++ [projSubq sch db q pr2]) ++ vals.filterMap (mkProjSubq sch db q)
          from by rw [List.append_cons]]
      exact ih (acc ++ [projSubq sch db q pr2])

/-- Membership in the materialized per-value subquery. -/
theorem projSubq_mem (sch : Schema) (db : DB) (q : Query) (dlbl : String)
    (hjc : q.joinClass = q.primary) (hpr : q.primary = PyClass.cls "project")
    (hl : q.qlimit = none) (ho : q.qoffset = 0) (hord : q.ordering = [])
    (hfr : ∀ c ∈ q.rows, c.frames = [])
    (hpl : (metaOf sch (PyClass.cls "project")).pgLinks.find?
      (fun p => p.fst == "programs") = some ("programs", dlbl))
    (hne : dlbl ≠ "project") (pr2 : String × String) :
    ∀ r, r ∈ (projSubq sch db q pr2).exec
      ↔ (r ∈ q.bases ∧ matchesSplitPid db dlbl r pr2) := by
  intro r
  have hp1 := path1_programs_ok sch db q dlbl hjc hpr hpl pr2.snd
  set q1 := q.propsFilter "code" (JVal.jstr pr2.snd) with hq1
  set q2 := okOr (path1 sch db q1 "programs") q with hq2
  have hq2eq : q2 = { q1 with
      joinClass := PyClass.cls dlbl,
      rows := q1.rows.flatMap (fun c =>
        match c.resolveCls q1.primary q1.joinClass with
        | none => []
        | some rr =>
          (db.edges.filter (fun e => e.src == rr.node_id && e.link == "programs")).flatMap
            (fun e => (db.nodes.filter (fun n => n.node_id == e.dst && n.label == dlbl)).map
              (fun n => { c with frames := (PyClass.cls dlbl, n) :: c.frames }))) } := by
    rw [hq2]
    rw [show path1 sch db q1 "programs" = .ok (okOr (path1 sch db q1 "programs") q)
      from hp1]
    unfold path1 at hp1 ⊢
    rw [show (metaOf sch q1.joinClass).pgLinks.find?
        (fun p => p.fst == "programs") = some ("programs", dlbl) from by
      rw [show q1.joinClass = q.joinClass from rfl, hjc, hpr]
      exact hpl] at hp1
    rw [except_pure_ok] at hp1
    rw [okOr]
    exact hp1.symm
  have hexec : (projSubq sch db q pr2).exec = (projSubq sch db q pr2).bases := by
    apply exec_eq_bases
    · show (q2.propsFilter "name" (JVal.jstr pr2.fst)).qlimit = none
      rw [show (q2.propsFilter "name" (JVal.jstr pr2.fst)).qlimit = q2.qlimit from rfl]
      rw [hq2eq]
      exact hl
    · show (q2.propsFilter "name" (JVal.jstr pr2.fst)).qoffset = 0
      rw [show (q2.propsFilter "name" (JVal.jstr pr2.fst)).qoffset = q2.qoffset from rfl]
      rw [hq2eq]
      exact ho
    · show (q2.propsFilter "name" (JVal.jstr pr2.fst)).ordering = []
      rw [show (q2.propsFilter "name" (JVal.jstr pr2.fst)).ordering = q2.ordering from rfl]
      rw [hq2eq]
      exact hord
  rw [show projSubq sch db q pr2 = q2.propsFilter "name" (JVal.jstr pr2.fst)
    from rfl] at hexec ⊢
  rw [hexec]
  rw [mem_bases]
  constructor
  · rintro ⟨c, hc, hcb⟩
    rw [show (q2.propsFilter "name" (JVal.jstr pr2.fst)).rows
        = q2.rows.filter (fun c =>
            match c.resolveCls q2.primary q2.joinClass with
            | some rr => propsContain rr "name" (JVal.jstr pr2.fst)
            | none => false) from rfl] at hc
    have hc2 := List.mem_filter.mp hc
    have hcrow := hc2.1
    have hcname := hc2.2
    rw [hq2eq] at hcrow
    simp only [List.mem_flatMap] at hcrow
    rcases hcrow with ⟨c0, hc0, hcc⟩
    have hc0q : c0 ∈ q.rows := (List.mem_filter.mp hc0).1
    have hc0code := (List.mem_filter.mp hc0).2
    have hres : c0.resolveCls q1.primary q1.joinClass = some c0.base := by
      unfold Ctx.resolveCls
      rw [show q1.joinClass = q.joinClass from rfl, show q1.primary = q.primary from rfl,
        hjc, if_pos rfl]
    rw [hres] at hcc
    simp only [List.mem_flatMap, List.mem_map] at hcc
    rcases hcc with ⟨e, he, n, hn, hceq⟩
    have hef := List.mem_filter.mp he
    have hnf := List.mem_filter.mp hn
    subst hceq
    -- the name filter resolves the joined program frame
    have hframes : c0.frames = [] := hfr c0 hc0q
    have hresn : ({ c0 with frames := (PyClass.cls dlbl, n) :: c0.frames } :
        Ctx).resolveCls q2.primary q2.joinClass = some n := by
      unfold Ctx.resolveCls
      rw [show q2.primary = q1.primary from by rw [hq2eq]]
      rw [show q2.joinClass = PyClass.cls dlbl from by rw [hq2eq]]
      rw [if_neg (by
        rw [show q1.primary = q.primary from rfl, hpr]
        intro hcontra
        exact hne (by injection hcontra))]
      simp
    rw [hresn] at hcname
    refine ⟨mem_bases.mpr ⟨c0, hc0q, hcb⟩, ?_⟩
    constructor
    · -- code property of the base row
      have : (match c0.resolveCls q.primary q.joinClass with
          | some rr => propsContain rr "code" (JVal.jstr pr2.snd)
          | none => false) = true := hc0code
      rw [show c0.resolveCls q.primary q.joinClass = some c0.base from by
        unfold Ctx.resolveCls
        rw [hjc, if_pos rfl]] at this
      rw [← hcb]
      exact this
    · refine ⟨e, hef.1, ?_, ?_, n, hnf.1, ?_, ?_, hcname⟩
      · have := hef.2
        rw [← hcb]
        simp only [Bool.and_eq_true, beq_iff_eq] at this
        exact this.1
      · have := hef.2
        simp only [Bool.and_eq_true, beq_iff_eq] at this
        exact this.2
      · have := hnf.2
        simp only [Bool.and_eq_true, beq_iff_eq] at this
        exact this.1
      · have := hnf.2
        simp only [Bool.and_eq_true, beq_iff_eq] at this
        exact this.2
  · rintro ⟨hrb, hcode, e, he, hesrc, helink, p, hp, hpdst, hplbl, hpname⟩
    rcases mem_bases.mp hrb with ⟨c0, hc0, hcb⟩
    have hframes : c0.frames = [] := hfr c0 hc0
    refine ⟨{ c0 with frames := (PyClass.cls dlbl, p) :: c0.frames }, ?_, hcb⟩
    rw [show (q2.propsFilter "name" (JVal.jstr pr2.fst)).rows
        = q2.rows.filter (fun c =>
            match c.resolveCls q2.primary q2.joinClass with
            | some rr => propsContain rr "name" (JVal.jstr pr2.fst)
            | none => false) from rfl]
    rw [List.mem_filter]
    constructor
    · rw [hq2eq]
      simp only [List.mem_flatMap]
      refine ⟨c0, ?_, ?_⟩
      · rw [show q1.rows = q.rows.filter (fun c =>
            match c.resolveCls q.primary q.joinClass with
            | some rr => propsContain rr "code" (JVal.jstr pr2.snd)
            | none => false) from rfl]
        rw [List.mem_filter]
        refine ⟨hc0, ?_⟩
        rw [show c0.resolveCls q.primary q.joinClass = some c0.base from by
          unfold Ctx.resolveCls
          rw [hjc, if_pos rfl]]
        rw [hcb]
        exact hcode
      · rw [show c0.resolveCls q1.primary q1.joinClass = some c0.base from by
          unfold Ctx.resolveCls
          rw [show q1.joinClass = q.joinClass from rfl,
            show q1.primary = q.primary from rfl, hjc, if_pos rfl]]
        simp only [List.mem_flatMap, List.mem_map]
        refine ⟨e, ?_, p, ?_, rfl⟩
        · rw [List.mem_filter]
          refine ⟨he, ?_⟩
          simp only [Bool.and_eq_true, beq_iff_eq]
          exact ⟨by rw [hcb]; exact hesrc, helink⟩
        · rw [List.mem_filter]
          refine ⟨hp, ?_⟩
          simp only [Bool.and_eq_true, beq_iff_eq]
          exact ⟨hpdst, hplbl⟩
    · rw [show ({ c0 with frames := (PyClass.cls dlbl, p) :: c0.frames } :
          Ctx).resolveCls q2.primary q2.joinClass = some p from by
        unfold Ctx.resolveCls
        rw [show q2.primary = q1.primary from by rw [hq2eq]]
        rw [show q2.joinClass = PyClass.cls dlbl from by rw [hq2eq]]
        rw [if_neg (by
          rw [show q1.primary = q.primary from rfl, hpr]
          intro hcontra
          exact hne (by injection hcontra))]
        simp]
      exact hpname

/-- Row membership of the compiled project-id filter: exactly the base
rows whose code matches the project code of some given composite id and
whose programs link reaches a program with the matching name. -/
theorem filter_project_project_id_mem (sch : Schema) (db : DB) (q : Query)
    (vals : List String) (q' : Query) (dlbl : String)
    (hjc : q.joinClass = q.primary) (hpr : q.primary = PyClass.cls "project")
    (hl : q.qlimit = none) (ho : q.qoffset = 0) (hord : q.ordering = [])
    (hfr : ∀ c ∈ q.rows, c.frames = [])
    (hpl : (metaOf sch (PyClass.cls "project")).pgLinks.find?
      (fun p => p.fst == "programs") = some ("programs", dlbl))
    (hne : dlbl ≠ "project")
    (hok : filter_project_project_id sch db q vals = .ok q') :
    ∀ r, r ∈ q'.exec
      ↔ (∃ pid ∈ vals, ∃ pr2, splitFirstHyphen pid = some pr2
          ∧ r ∈ q.bases ∧ matchesSplitPid db dlbl r pr2) := by
  intro r
  unfold filter_project_project_id at hok
  rw [fppi_fold_subqs sch db q dlbl hjc hpr hpl vals []] at hok
  rw [except_ok_bind, List.nil_append] at hok
  cases hemp : (vals.filterMap (mkProjSubq sch db q)).isEmpty with
  | true =>
    rw [hemp] at hok
    rw [if_pos rfl, except_pure_ok] at hok
    subst hok
    have hnil : vals.filterMap (mkProjSubq sch db q) = [] :=
      List.isEmpty_iff.mp hemp
    constructor
    · intro hr
      have hb := mem_exec_sub r hr
      rcases mem_bases.mp hb with ⟨c, hc, _⟩
      rw [show (q.filter (fun _ => false)).rows
          = q.rows.filter (fun _ => false) from rfl] at hc
      rw [List.filter_false] at hc
      exact absurd hc (List.not_mem_nil c)
    · rintro ⟨pid, hpid, pr2, hsp, _, _⟩
      have : mkProjSubq sch db q pid = none := by
        have := List.filterMap_eq_nil_iff.mp hnil pid hpid
        exact this
      unfold mkProjSubq at this
      rw [hsp] at this
      exact absurd this (by simp)
  | false =>
    rw [hemp] at hok
    rw [if_neg (by simp), except_pure_ok] at hok
    subst hok
    have hx : (selectEntityFrom q.joinClass
        (vals.filterMap (mkProjSubq sch db q))).exec
        = (selectEntityFrom q.joinClass (vals.filterMap (mkProjSubq sch db q))).bases :=
      exec_eq_bases rfl rfl rfl
    rw [hx]
    unfold selectEntityFrom
    rw [mem_bases_mkCtx, List.mem_flatten]
    constructor
    · rintro ⟨l, hl2, hrl⟩
      rcases List.mem_map.mp hl2 with ⟨s, hs, hsl⟩
      subst hsl
      rcases List.mem_filterMap.mp hs with ⟨pid, hpid, hmk⟩
      unfold mkProjSubq at hmk
      cases hsp : splitFirstHyphen pid with
      | none => rw [hsp] at hmk; exact absurd hmk (by simp)
      | some pr2 =>
        rw [hsp] at hmk
        simp only [Option.map_some'] at hmk
        injection hmk with hmk
        subst hmk
        have := (projSubq_mem sch db q dlbl hjc hpr hl ho hord hfr hpl hne pr2 r).mp hrl
        exact ⟨pid, hpid, pr2, hsp, this.1, this.2⟩
    · rintro ⟨pid, hpid, pr2, hsp, hrb, hmatch⟩
      refine ⟨(projSubq sch db q pr2).exec, ?_, ?_⟩
      · apply List.mem_map.mpr
        refine ⟨projSubq sch db q pr2, ?_, rfl⟩
        apply List.mem_filterMap.mpr
        refine ⟨pid, hpid, ?_⟩
        unfold mkProjSubq
        rw [hsp]
        rfl
      · exact (projSubq_mem sch db q dlbl hjc hpr hl ho hord hfr hpl hne pr2 r).mpr
          ⟨hrb, hmatch⟩

/-- C2 amended: for the project type the authorized query is exactly
the project-id filter over the readable projects list: it returns the
project rows whose code and linked program name match one of the
readable composite ids, and applies NO exclusion on the state property
(active_project_filter exists in util.py but authorization_filter never
invokes it). -/
theorem c2_amended (cfg : AuthCfg) (sch : Schema) (db : DB) (dlbl : String)
    (hmp : (metaOf sch (PyClass.cls "project")).hasProjectId = false)
    (hlb : (metaOf sch (PyClass.cls "project")).label = "project")
    (hpl : (metaOf sch (PyClass.cls "project")).pgLinks.find?
      (fun p => p.fst == "programs") = some ("programs", dlbl))
    (hne : dlbl ≠ "project") :
    (authorization_filter cfg sch db (dbNodes db (PyClass.cls "project"))
      = filter_project_project_id sch db (dbNodes db (PyClass.cls "project"))
          cfg.readProjects)
    ∧ (∀ q', filter_project_project_id sch db (dbNodes db (PyClass.cls "project"))
          cfg.readProjects = .ok q' →
        ∀ r, r ∈ q'.exec
          ↔ (∃ pid ∈ cfg.readProjects, ∃ pr2, splitFirstHyphen pid = some pr2
              ∧ r ∈ (dbNodes db (PyClass.cls "project")).bases
              ∧ matchesSplitPid db dlbl r pr2)) := by
  constructor
  · unfold authorization_filter
    dsimp only
    rw [if_neg (by intro hc; exact hc.1 rfl)]
    rw [except_pure_eq, except_ok_bind]
    dsimp only
    rw [if_neg (by
      rintro (h | h)
      · exact PyClass.noConfusion h
      · rw [show (metaOf sch (dbNodes db (PyClass.cls "project")).joinClass)
            = metaOf sch (PyClass.cls "project") from rfl] at h
        rw [hmp] at h
        exact Bool.false_ne_true h)]
    rw [except_pure_eq, except_ok_bind]
    rw [if_pos (show (metaOf sch (dbNodes db (PyClass.cls "project")).joinClass).label
      = "project" from hlb)]
    exact except_bind_pure
  · intro q' hok r
    exact filter_project_project_id_mem sch db (dbNodes db (PyClass.cls "project"))
      cfg.readProjects q' dlbl rfl rfl rfl rfl rfl
      (by
        intro c hc
        rcases List.mem_map.mp hc with ⟨n, _, hn⟩
        rw [← hn])
      hpl hne hok r

def projC2 : PNode :=
  { node_id := "pr1", label := "project",
    props := [("code", JVal.jstr "p1"), ("state", JVal.jstr "closed")] }

def progC2 : PNode :=
  { node_id := "pg1", label := "program",
    props := [("name", JVal.jstr "prog")] }

def dbC2 : DB :=
  { nodes := [projC2, progC2],
    edges := [{ src := "pr1", link := "programs", dst := "pg1" }] }

def cfgC2 : AuthCfg :=
  { authLeaf := none, subject := none,
    perms := [("prog-p1", ["*"])], readProjects := ["prog-p1"] }

/-- C2 counterexample: the authorized project query returns a project
row whose state property is the closed sentinel (the claimed
closed/legacy exclusion is not applied). -/
theorem c2_counterexample :
    (authorization_filter cfgC2 schCase dbC2
        (dbNodes dbC2 (PyClass.cls "project"))).map Query.exec
      = Except.ok [projC2]
    ∧ projC2.getProp "state" = some (JVal.jstr "closed") := by
  exact ⟨by rfl, by rfl⟩

/-- C2 amended applied at a concrete store: the closed project row is
returned because its code and program name match a readable id. -/
theorem c2_amended_witness :
    (authorization_filter cfgC2 schCase dbC2 (dbNodes dbC2 (PyClass.cls "project"))
      = filter_project_project_id schCase dbC2
          (dbNodes dbC2 (PyClass.cls "project")) cfgC2.readProjects)
    ∧ (∀ q', filter_project_project_id schCase dbC2
          (dbNodes dbC2 (PyClass.cls "project")) cfgC2.readProjects = .ok q' →
        ∀ r, r ∈ q'.exec
          ↔ (∃ pid ∈ cfgC2.readProjects, ∃ pr2, splitFirstHyphen pid = some pr2
              ∧ r ∈ (dbNodes dbC2 (PyClass.cls "project")).bases
              ∧ matchesSplitPid dbC2 "program" r pr2)) :=
  c2_amended cfgC2 schCase dbC2 "program" rfl rfl rfl (by decide)

-- ====================================================================
-- C1

/-- The data invariant the deployment maintains: two stored rows joined
by an edge share their project_id property. -/
def projectIdEdgeConsistent (db : DB) : Bool :=
  db.edges.all (fun e => db.nodes.all (fun s => db.nodes.all (fun d =>
    !(s.node_id == e.src) || !(d.node_id == e.dst)
      || decide (s.getProp "project_id" = d.getProp "project_id"))))

theorem consistent_edge {db : DB} (h : projectIdEdgeConsistent db = true)
    {e : GEdge} {s d : PNode} (he : e ∈ db.edges) (hs : s ∈ db.nodes)
    (hd : d ∈ db.nodes) (hse : s.node_id = e.src) (hde : d.node_id = e.dst) :
    s.getProp "project_id" = d.getProp "project_id" := by
  unfold projectIdEdgeConsistent at h
  have h1 := List.all_eq_true.mp h e he
  have h2 := List.all_eq_true.mp h1 s hs
  have h3 := List.all_eq_true.mp h2 d hd
  have e1 : (s.node_id == e.src) = true := beq_iff_eq.mpr hse
  have e2 : (d.node_id == e.dst) = true := beq_iff_eq.mpr hde
  rw [e1, e2] at h3
  simp only [Bool.not_true, Bool.false_or] at h3
  exact of_decide_eq_true h3

/-- Invariant of row contexts built by the authorization filter: the
base row is stored and every joined frame is a stored row sharing the
base project_id. -/
def ctxOk (db : DB) (c : Ctx) : Prop :=
  c.base ∈ db.nodes
  ∧ ∀ f ∈ c.frames, f.snd ∈ db.nodes
      ∧ f.snd.getProp "project_id" = c.base.getProp "project_id"

theorem ctxOk_dbNodes {db : DB} {cl : PyClass} :
    ∀ c ∈ (dbNodes db cl).rows, ctxOk db c := by
  intro c hc
  unfold dbNodes mkCtxRows at hc
  rcases List.mem_map.mp hc with ⟨n, hn, hcn⟩
  subst hcn
  exact ⟨(List.mem_filter.mp hn).1,
    by intro f hf; exact absurd hf (List.not_mem_nil f)⟩

theorem ctxOk_filter {db : DB} {q : Query} {p : Ctx → Bool}
    (h : ∀ c ∈ q.rows, ctxOk db c) : ∀ c ∈ (q.filter p).rows, ctxOk db c := by
  intro c hc
  exact h c (List.mem_filter.mp hc).1

theorem resolveCls_ok {db : DB} {c : Ctx} {primary cl : PyClass} {rr : PNode}
    (hok : ctxOk db c) (hres : c.resolveCls primary cl = some rr) :
    rr ∈ db.nodes ∧ rr.getProp "project_id" = c.base.getProp "project_id" := by
  unfold Ctx.resolveCls at hres
  split at hres
  · injection hres with hres
    subst hres
    exact ⟨hok.1, rfl⟩
  · rcases Option.map_eq_some'.mp hres with ⟨f, hfind, hfr⟩
    have hmem := List.mem_of_find?_eq_some hfind
    have := hok.2 f hmem
    rw [hfr] at this
    exact this

theorem ctxOk_path1 {sch : Schema} {db : DB} {q q2 : Query} {link : String}
    (hcons : projectIdEdgeConsistent db = true)
    (h : ∀ c ∈ q.rows, ctxOk db c)
    (hp : path1 sch db q link = .ok q2) : ∀ c ∈ q2.rows, ctxOk db c := by
  unfold path1 at hp
  split at hp
  · exact absurd hp (by simp [throw, throwThe, MonadExceptOf.throw])
  · rw [except_pure_ok] at hp
    subst hp
    intro c hc
    simp only [List.mem_flatMap] at hc
    rcases hc with ⟨c0, hc0, hcc⟩
    have hok0 := h c0 hc0
    revert hcc
    cases hres : c0.resolveCls q.primary q.joinClass with
    | none => intro hcc; exact absurd hcc (List.not_mem_nil c)
    | some rr =>
      intro hcc
      have hrr := resolveCls_ok hok0 hres
      simp only [List.mem_flatMap, List.mem_map] at hcc
      rcases hcc with ⟨e, he, n, hn, hceq⟩
      have hef := List.mem_filter.mp he
      have hnf := List.mem_filter.mp hn
      have hesrc : rr.node_id = e.src := by
        have := hef.2
        simp only [Bool.and_eq_true, beq_iff_eq] at this
        exact this.1.symm
      have hndst : n.node_id = e.dst := by
        have := hnf.2
        simp only [Bool.and_eq_true, beq_iff_eq] at this
        exact this.1
      have hpid : rr.getProp "project_id" = n.getProp "project_id" :=
        consistent_edge hcons hef.1 hrr.1 hnf.1 hesrc hndst
      subst hceq
      refine ⟨hok0.1, ?_⟩
      intro f hf
      rcases List.mem_cons.mp hf with hf1 | hf1
      · subst hf1
        exact ⟨hnf.1, by rw [← hpid, hrr.2]⟩
      · exact hok0.2 f hf1

theorem ctxOk_pathChain {sch : Schema} {db : DB}
    (hcons : projectIdEdgeConsistent db = true) :
    ∀ (links : List String) (q q2 : Query),
    (∀ c ∈ q.rows, ctxOk db c) →
    pathChain sch db q links = .ok q2 → ∀ c ∈ q2.rows, ctxOk db c := by
  intro links
  induction links with
  | nil =>
    intro q q2 h hp
    unfold pathChain at hp
    rw [List.foldlM_nil, except_pure_ok] at hp
    exact hp ▸ h
  | cons l ls ih =>
    intro q q2 h hp
    unfold pathChain at hp
    rw [List.foldlM_cons] at hp
    rcases except_bind_ok.mp hp with ⟨q1, h1, h2⟩
    exact ih q1 q2 (ctxOk_path1 hcons h h1) h2

theorem path1_primary {sch : Schema} {db : DB} {q q2 : Query} {link : String}
    (hp : path1 sch db q link = .ok q2) : q2.primary = q.primary := by
  unfold path1 at hp
  split at hp
  · exact absurd hp (by simp [throw, throwThe, MonadExceptOf.throw])
  · rw [except_pure_ok] at hp
    subst hp
    rfl

theorem pathChain_primary {sch : Schema} {db : DB} :
    ∀ (links : List String) (q q2 : Query),
    pathChain sch db q links = .ok q2 → q2.primary = q.primary := by
  intro links
  induction links with
  | nil =>
    intro q q2 hp
    unfold pathChain at hp
    rw [List.foldlM_nil, except_pure_ok] at hp
    exact hp ▸ rfl
  | cons l ls ih =>
    intro q q2 hp
    unfold pathChain at hp
    rw [List.foldlM_cons] at hp
    rcases except_bind_ok.mp hp with ⟨q1, h1, h2⟩
    rw [ih q1 q2 h2, path1_primary h1]

/-- Following a dotted link chain through the schema metadata. -/
def chainFollow (sch : Schema) : PyClass → List String → Option PyClass
  | cl, [] => some cl
  | cl, l :: ls =>
    match (metaOf sch cl).pgLinks.find? (fun p => p.fst == l) with
    | none => none
    | some pr => chainFollow sch (PyClass.cls pr.snd) ls

theorem pathChain_joinClass {sch : Schema} {db : DB} :
    ∀ (links : List String) (q q2 : Query),
    pathChain sch db q links = .ok q2 →
    chainFollow sch q.joinClass links = some q2.joinClass := by
  intro links
  induction links with
  | nil =>
    intro q q2 hp
    unfold pathChain at hp
    rw [List.foldlM_nil, except_pure_ok] at hp
    rw [← hp]
    rfl
  | cons l ls ih =>
    intro q q2 hp
    unfold pathChain at hp
    rw [List.foldlM_cons] at hp
    rcases except_bind_ok.mp hp with ⟨q1, h1, h2⟩
    have hrest := ih q1 q2 h2
    unfold path1 at h1
    cases hf : (metaOf sch q.joinClass).pgLinks.find? (fun p => p.fst == l) with
    | none =>
      rw [hf] at h1
      exact absurd h1 (by simp [throw, throwThe, MonadExceptOf.throw])
    | some pr =>
      rw [hf] at h1
      rw [except_pure_ok] at h1
      have hjc1 : q1.joinClass = PyClass.cls pr.snd := by rw [← h1]
      unfold chainFollow
      rw [hf]
      dsimp only
      rw [← hjc1]
      exact hrest

theorem walkChain_follow {sch : Schema} {leaf : PyClass} :
    ∀ (fuel : Nat) (tmp : PyClass) (path0 : List String)
      (res : List String × PyClass),
    walkChain sch leaf fuel tmp path0 = .ok res →
    ∃ tail, res.fst = path0 ++ tail ∧ chainFollow sch tmp tail = some res.snd := by
  intro fuel
  induction fuel with
  | zero =>
    intro tmp path0 res h
    exact absurd h (by simp [walkChain, throw, throwThe, MonadExceptOf.throw])
  | succ fuel ih =>
    intro tmp path0 res h
    unfold walkChain at h
    split at h
    · rw [except_pure_ok] at h
      subst h
      exact ⟨[], by simp, rfl⟩
    · rcases except_bind_ok.mp h with ⟨nl, hnl, h⟩
      rcases ih nl.snd (path0 ++ [nl.fst]) res h with ⟨tail, htail, hcf⟩
      refine ⟨nl.fst :: tail, by rw [htail]; simp, ?_⟩
      unfold firstLink at hnl
      cases hpg : (metaOf sch tmp).pgLinks with
      | nil =>
        rw [hpg] at hnl
        exact absurd hnl (by simp [throw, throwThe, MonadExceptOf.throw])
      | cons p rest =>
        rw [hpg] at hnl
        rw [except_pure_ok] at hnl
        unfold chainFollow
        rw [hpg]
        rw [show (p :: rest).find? (fun pr => pr.fst == nl.fst) = some p from by
          rw [← hnl]
          rw [List.find?_cons_of_pos]
          simp]
        dsimp only
        rw [show PyClass.cls p.snd = nl.snd from by rw [← hnl]]
        exact hcf

theorem chainFollow_firstLink {sch : Schema} {cl : PyClass} {nl : String × PyClass}
    (h : firstLink sch cl = .ok nl) (tail : List String) :
    chainFollow sch cl (nl.fst :: tail) = chainFollow sch nl.snd tail := by
  unfold firstLink at h
  cases hpg : (metaOf sch cl).pgLinks with
  | nil =>
    rw [hpg] at h
    exact absurd h (by simp [throw, throwThe, MonadExceptOf.throw])
  | cons p rest =>
    rw [hpg] at h
    rw [except_pure_ok] at h
    show (match (metaOf sch cl).pgLinks.find? (fun pr2 => pr2.fst == nl.fst) with
          | none => none
          | some pr2 => chainFollow sch (PyClass.cls pr2.snd) tail)
        = chainFollow sch nl.snd tail
    rw [hpg]
    rw [show (p :: rest).find? (fun pr2 => pr2.fst == nl.fst) = some p from by
      rw [← h]
      rw [List.find?_cons_of_pos]
      simp]
    dsimp only
    rw [show PyClass.cls p.snd = nl.snd from by rw [← h]]

/-- Invariant preservation along a monadic fold, where the step only has
to preserve the invariant on the list elements actually folded over. -/
theorem foldlM_inv_mem {σ α : Type} {f : σ → α → Except PyError σ} (P : σ → Prop) :
    ∀ (l : List α), (∀ s a s2, a ∈ l → P s → f s a = .ok s2 → P s2) →
    ∀ (s0 sf : σ), P s0 → List.foldlM f s0 l = .ok sf → P sf := by
  intro l
  induction l with
  | nil =>
    intro _ s0 sf h0 hf
    rw [List.foldlM_nil, except_pure_ok] at hf
    exact hf ▸ h0
  | cons a l ih =>
    intro hstep s0 sf h0 hf
    rw [List.foldlM_cons] at hf
    rcases except_bind_ok.mp hf with ⟨s1, h1, h2⟩
    exact ih (fun s b s2 hb => hstep s b s2 (List.mem_cons_of_mem a hb)) s1 sf
      (hstep s0 a s1 (List.mem_cons_self a l) h0 h1) h2

/-- A fold whose every step appends one element to the second state
component ends with a nonempty second component as soon as the start
state or the folded list is nonempty. -/
theorem foldlM_snd_grows {σ τ α : Type}
    {f : σ × List τ → α → Except PyError (σ × List τ)}
    (hgrow : ∀ st a st2, f st a = .ok st2 → ∃ g, st2.snd = st.snd ++ [g]) :
    ∀ (l : List α) (st st2 : σ × List τ), List.foldlM f st l = .ok st2 →
      (st.snd ≠ [] ∨ l ≠ []) → st2.snd ≠ [] := by
  intro l
  induction l with
  | nil =>
    intro st st2 hf h
    rw [List.foldlM_nil, except_pure_ok] at hf
    rcases h with h | h
    · exact hf ▸ h
    · exact absurd rfl h
  | cons a l ih =>
    intro st st2 hf h
    rw [List.foldlM_cons] at hf
    rcases except_bind_ok.mp hf with ⟨st1, h1, h2⟩
    rcases hgrow st a st1 h1 with ⟨g, hg⟩
    refine ih st1 st2 h2 (Or.inl ?_)
    rw [hg]
    intro hc
    exact absurd (List.append_eq_nil.mp hc).2 (by simp)

theorem rows_nil_of_narrows {q q2 : Query} (h : Narrows q q2) (hq : q.rows = []) :
    q2.rows = [] := by
  have hb : q2.bases = [] := by
    refine List.eq_nil_iff_forall_not_mem.mpr ?_
    intro r hr
    have h2 := h r hr
    rw [show q.bases = [] from by rw [Query.bases, hq, List.map_nil]] at h2
    exact absurd h2 (List.not_mem_nil r)
  exact List.map_eq_nil_iff.mp hb

/-- A true class/property text-equality predicate on a well-formed row
context pins the text of the base row's property. -/
theorem clsPropEq_sound {db : DB} {c : Ctx} {prim cl : PyClass} {v : String}
    (hok : ctxOk db c) (h : clsPropEq prim cl "project_id" v c = true) :
    ∃ jv, c.base.getProp "project_id" = some jv ∧ astext jv = v := by
  unfold clsPropEq at h
  cases hres : c.resolveCls prim cl with
  | none =>
    rw [hres] at h
    exact absurd h (by simp)
  | some rr =>
    rw [hres] at h
    dsimp only at h
    cases hgp : rr.getProp "project_id" with
    | none =>
      rw [hgp] at h
      exact absurd h (by simp)
    | some jv =>
      rw [hgp] at h
      dsimp only at h
      refine ⟨jv, ?_, beq_iff_eq.mp h⟩
      rw [← (resolveCls_ok hok hres).2, hgp]

/-- C1: over a store whose edges connect rows of equal project_id, for a
scoped entity type (one carrying a project_id attribute, or the generic
node supertype) under a scoped authz-leaf configuration, the authorized
query never returns a row whose project_id scope key is absent from the
permission map; and an empty permission map compiles to the always-false
predicate, so the authorized query returns zero rows, as does every
apply_query_args pipeline over it regardless of caller-supplied
arguments. -/
theorem c1_scoped_deny_by_default (cfg : AuthCfg) (sch : Schema) (db : DB)
    (cl : PyClass) (q' : Query)
    (hscoped : cl = PyClass.node ∨ (metaOf sch cl).hasProjectId = true)
    (hleaf : ∀ l, cfg.authLeaf = some l →
      (metaOf sch (PyClass.cls l)).hasProjectId = true)
    (hcons : projectIdEdgeConsistent db = true)
    (hq : get_authorized_query cfg sch db cl = .ok q') :
    (∀ S, S ∉ cfg.perms.map Prod.fst → ∀ r ∈ q'.exec,
      ¬ ∃ jv, r.getProp "project_id" = some jv ∧ astext jv = S)
    ∧ (cfg.perms = [] → q'.exec = []
        ∧ ∀ (cc : Bool) (args : Args) (q2 : Query),
            apply_query_args cc sch db q' args = .ok q2 → q2.exec = []) := by
  unfold get_authorized_query authorization_filter at hq
  dsimp only at hq
  simp only [show (dbNodes db cl).joinClass = cl from rfl] at hq
  rcases except_bind_ok.mp hq with ⟨st1, hst1, hq⟩
  rcases except_bind_ok.mp hq with ⟨qf, hqf, hq⟩
  rcases except_bind_ok.mp hq with ⟨qp, hqp, hq⟩
  rw [except_pure_ok] at hq
  subst hq
  have hfacts : (∀ c ∈ st1.fst.rows, ctxOk db c)
      ∧ (st1.snd.fst = PyClass.node
          ∨ (metaOf sch st1.snd.fst).hasProjectId = true) := by
    split at hst1
    · rename_i hcond
      have hsome := hcond.2.2.2
      cases hal : cfg.authLeaf with
      | none =>
        rw [hal] at hsome
        simp [optCls] at hsome
      | some l =>
        rw [hal] at hst1
        simp only [optCls, Option.map_some', Option.getD_some] at hst1
        rcases except_bind_ok.mp hst1 with ⟨st0, hst0, hst1⟩
        have hst0f : (∀ c ∈ st0.fst.rows, ctxOk db c)
            ∧ (st0.snd = cl ∨ st0.snd = PyClass.cls l) := by
          split at hst0
          · rcases except_bind_ok.mp hst0 with ⟨nl, hnl, hst0⟩
            rcases except_bind_ok.mp hst0 with ⟨wr, hwr, hst0⟩
            split at hst0
            · rename_i hws
              rcases except_bind_ok.mp hst0 with ⟨q2, hq2, hst0⟩
              rw [except_pure_ok] at hst0
              subst hst0
              refine ⟨ctxOk_pathChain hcons wr.fst (dbNodes db cl) q2
                ctxOk_dbNodes hq2, Or.inr ?_⟩
              show q2.joinClass = PyClass.cls l
              rcases walkChain_follow (sch.length + 1) nl.snd [nl.fst] wr hwr
                with ⟨tail, htail, hcf⟩
              have hjc := pathChain_joinClass wr.fst (dbNodes db cl) q2 hq2
              rw [show (dbNodes db cl).joinClass = cl from rfl] at hjc
              rw [htail, List.singleton_append] at hjc
              rw [chainFollow_firstLink hnl tail] at hjc
              rw [hcf] at hjc
              injection hjc with hjc
              rw [← hjc]
              exact hws
            · rw [except_pure_ok] at hst0
              subst hst0
              exact ⟨ctxOk_dbNodes, Or.inl rfl⟩
          · rw [except_pure_ok] at hst0
            subst hst0
            exact ⟨ctxOk_dbNodes, Or.inl rfl⟩
        split at hst1
        · rename_i hl2
          rcases except_bind_ok.mp hst1 with ⟨q3, hq3, hst1⟩
          rw [except_pure_ok] at hst1
          subst hst1
          refine ⟨?_, ?_⟩
          · show ∀ c ∈ q3.rows, ctxOk db c
            exact ctxOk_path1 hcons hst0f.1 hq3
          · show st0.snd = PyClass.node ∨ (metaOf sch st0.snd).hasProjectId = true
            rw [hl2]
            exact Or.inr (hleaf l hal)
        · rename_i hl2
          rw [except_pure_ok] at hst1
          subst hst1
          refine ⟨hst0f.1, ?_⟩
          show st0.snd = PyClass.node ∨ (metaOf sch st0.snd).hasProjectId = true
          rcases hst0f.2 with h | h
          · rw [h]
            exact hscoped
          · exact absurd h hl2
    · rw [except_pure_ok] at hst1
      subst hst1
      exact ⟨ctxOk_dbNodes, hscoped⟩
  rw [if_pos hfacts.2] at hqf
  cases hperm : cfg.perms with
  | nil =>
    rw [if_pos (show cfg.perms.isEmpty = true from by rw [hperm]; rfl)] at hqf
    rw [except_pure_ok] at hqf
    subst hqf
    have hFr : (st1.fst.filter (fun _ => false)).rows = [] :=
      List.filter_false _
    have hnar : Narrows (st1.fst.filter (fun _ => false)) qp := by
      split at hqp
      · exact filter_project_project_id_narrows hqp
      · rw [except_pure_ok] at hqp
        exact hqp ▸ narrows_refl
    have hqpr : qp.rows = [] := rows_nil_of_narrows hnar hFr
    refine ⟨?_, fun _ => ⟨exec_nil_of_rows_nil hqpr, ?_⟩⟩
    · intro S hS r hr
      rw [exec_nil_of_rows_nil hqpr] at hr
      exact absurd hr (List.not_mem_nil r)
    · intro cc args q2 h2
      exact exec_nil_of_rows_nil
        (rows_nil_of_narrows (apply_query_args_narrows h2) hqpr)
  | cons kv rest =>
    rw [if_neg (show ¬ cfg.perms.isEmpty = true from by rw [hperm]; simp)] at hqf
    rcases except_bind_ok.mp hqf with ⟨st2, hfold, hqf⟩
    have hP : (∀ c ∈ st2.fst.rows, ctxOk db c)
        ∧ (∀ p ∈ st2.snd, ∀ c : Ctx, p c = true →
            ∃ kv2 ∈ cfg.perms, ∃ prim,
              clsPropEq prim st1.snd.fst "project_id" kv2.fst c = true) := by
      refine foldlM_inv_mem (fun st => (∀ c ∈ st.fst.rows, ctxOk db c)
          ∧ (∀ p ∈ st.snd, ∀ c : Ctx, p c = true →
              ∃ kv2 ∈ cfg.perms, ∃ prim,
                clsPropEq prim st1.snd.fst "project_id" kv2.fst c = true))
        cfg.perms ?_ (st1.fst, []) st2
        ⟨hfacts.1, fun p hp => absurd hp (List.not_mem_nil p)⟩ hfold
      intro st kvx st2' hkv hP0 hstep
      rcases except_bind_ok.mp hstep with ⟨res, hres, hstep⟩
      rw [except_pure_ok] at hstep
      subst hstep
      have hres2 : (∀ c ∈ res.fst.rows, ctxOk db c)
          ∧ ∃ rest2, res.snd
              = clsPropEq st.fst.primary st1.snd.fst "project_id" kvx.fst
                  :: rest2 := by
        split at hres
        · split at hres
          · split at hres
            · rcases except_bind_ok.mp hres with ⟨sc, hsc, hres⟩
              rw [except_pure_ok] at hres
              subst hres
              exact ⟨hP0.1, _, rfl⟩
            · split at hres
              · rcases except_bind_ok.mp hres with ⟨q4, hq4, hres⟩
                rw [except_pure_ok] at hres
                subst hres
                refine ⟨?_, _, rfl⟩
                show ∀ c ∈ q4.rows, ctxOk db c
                exact ctxOk_path1 hcons hP0.1 hq4
              · rw [except_pure_ok] at hres
                subst hres
                exact ⟨hP0.1, _, rfl⟩
          · rw [except_pure_ok] at hres
            subst hres
            exact ⟨hP0.1, _, rfl⟩
        · rw [except_pure_ok] at hres
          subst hres
          exact ⟨hP0.1, _, rfl⟩
      refine ⟨hres2.1, ?_⟩
      intro p hp c hpc
      rcases List.mem_append.mp hp with hp | hp
      · exact hP0.2 p hp c hpc
      · rw [List.mem_singleton] at hp
        subst hp
        rcases hres2.2 with ⟨rest2, hsnd⟩
        simp only [List.all_eq_true] at hpc
        have hmemhd : clsPropEq st.fst.primary st1.snd.fst "project_id" kvx.fst
            ∈ res.snd := by
          rw [hsnd]
          exact List.mem_cons_self _ _
        exact ⟨kvx, hkv, st.fst.primary, hpc _ hmemhd⟩
    have hsnd_ne : st2.snd ≠ [] := by
      refine foldlM_snd_grows ?_ cfg.perms (st1.fst, []) st2 hfold
        (Or.inr (by rw [hperm]; simp))
      intro st a st2' h
      rcases except_bind_ok.mp h with ⟨res, _, h⟩
      rw [except_pure_ok] at h
      subst h
      exact ⟨_, rfl⟩
    rw [if_neg (show ¬ st2.snd.isEmpty = true from
      fun hc => hsnd_ne (List.isEmpty_iff.mp hc))] at hqf
    rw [except_pure_ok] at hqf
    subst hqf
    have hKF : ∀ r ∈ qp.bases, ∃ kv2 ∈ cfg.perms, ∃ jv,
        r.getProp "project_id" = some jv ∧ astext jv = kv2.fst := by
      have hnar : Narrows
          (st2.fst.filter (fun c => st2.snd.any fun p => p c)) qp := by
        split at hqp
        · exact filter_project_project_id_narrows hqp
        · rw [except_pure_ok] at hqp
          exact hqp ▸ narrows_refl
      intro r hr
      rcases mem_bases.mp (hnar r hr) with ⟨c, hc, hbase⟩
      have hc2 := List.mem_filter.mp hc
      have hcok : ctxOk db c := hP.1 c hc2.1
      have hany := hc2.2
      simp only [List.any_eq_true] at hany
      rcases hany with ⟨p, hp, hpc⟩
      rcases hP.2 p hp c hpc with ⟨kv2, hkv2, prim, hcp⟩
      rcases clsPropEq_sound hcok hcp with ⟨jv, hjv, hast⟩
      refine ⟨kv2, hkv2, jv, ?_, hast⟩
      rw [← hbase]
      exact hjv
    refine ⟨?_, ?_⟩
    · intro S hS r hr hex
      rw [← hperm] at hS
      rcases hex with ⟨jv, hjv, hast⟩
      rcases hKF r (mem_exec_sub r hr) with ⟨kv2, hkv2, jv2, hjv2, hast2⟩
      rw [hjv] at hjv2
      injection hjv2 with hjv2
      subst hjv2
      exact hS (List.mem_map.mpr ⟨kv2, hkv2, by rw [← hast2]; exact hast⟩)
    · intro hpe
      exact absurd hpe (List.cons_ne_nil kv rest)

def nC1 : PNode :=
  { node_id := "c1", label := "case",
    props := [("project_id", JVal.jstr "prog-p1")] }

def dbC1 : DB := { nodes := [nC1], edges := [] }

def cfgC1 : AuthCfg :=
  { authLeaf := none, subject := none,
    perms := [("prog-p1", ["*"])], readProjects := [] }

def qC1 : Query :=
  okOr (get_authorized_query cfgC1 schCase dbC1 (PyClass.cls "case"))
    (dbNodes dbC1 PyClass.node)

/-- C1 at a concrete store: the case type is scoped, the store has no
edges, the authorized query compiles, and its rows carry only permitted
scope keys; with an empty permission map it would return zero rows. -/
theorem c1_witness :
    ((PyClass.cls "case" = PyClass.node
        ∨ (metaOf schCase (PyClass.cls "case")).hasProjectId = true)
      ∧ projectIdEdgeConsistent dbC1 = true
      ∧ get_authorized_query cfgC1 schCase dbC1 (PyClass.cls "case") = .ok qC1)
    ∧ ((∀ S, S ∉ cfgC1.perms.map Prod.fst → ∀ r ∈ qC1.exec,
          ¬ ∃ jv, r.getProp "project_id" = some jv ∧ astext jv = S)
        ∧ (cfgC1.perms = [] → qC1.exec = []
            ∧ ∀ (cc : Bool) (args : Args) (q2 : Query),
                apply_query_args cc schCase dbC1 qC1 args = .ok q2 →
                  q2.exec = [])) :=
  ⟨⟨Or.inr rfl, rfl, rfl⟩,
    c1_scoped_deny_by_default cfgC1 schCase dbC1 (PyClass.cls "case") qC1
      (Or.inr rfl) (fun l h => Option.noConfusion h) rfl rfl⟩

-- ====================================================================
-- C3

/-- Characters that are neither JSON-escaped when stored (quote,
backslash) nor LIKE wildcards when searched for (percent, underscore). -/
def cleanChars (l : List Char) : Bool :=
  l.all (fun c => !(c == '"' || c == '\\' || c == '%' || c == '_'))

/-- Characters that are not LIKE wildcards. -/
def noWild (l : List Char) : Bool :=
  l.all (fun c => !(c == '%' || c == '_'))

theorem cleanChars_spec {l : List Char} (h : cleanChars l = true) :
    ∀ c ∈ l, c ≠ '"' ∧ c ≠ '\\' ∧ c ≠ '%' ∧ c ≠ '_' := by
  intro c hc
  have h2 := List.all_eq_true.mp h c hc
  refine ⟨?_, ?_, ?_, ?_⟩ <;> intro he <;> subst he <;> simp at h2

theorem flatten_escChar_clean :
    ∀ (l : List Char), cleanChars l = true → (l.map escChar).flatten = l := by
  intro l
  induction l with
  | nil => intro _; rfl
  | cons c cs ih =>
    intro h
    have hs := cleanChars_spec h c (List.mem_cons_self c cs)
    have hc : escChar c = [c] := by
      unfold escChar
      rw [if_neg hs.1, if_neg hs.2.1]
    have htl : cleanChars cs = true := by
      apply List.all_eq_true.mpr
      intro d hd
      exact List.all_eq_true.mp h d (List.mem_cons_of_mem c hd)
    simp only [List.map_cons, List.flatten_cons, hc]
    rw [ih htl]
    rfl

theorem jsonQuoteChars_clean {x : List Char} (h : cleanChars x = true) :
    jsonQuoteChars x = '"' :: x ++ ['"'] := by
  unfold jsonQuoteChars
  rw [flatten_escChar_clean x h]

theorem likeScan_iff (f : List Char → Bool) :
    ∀ s, likeScan f s = true ↔ ∃ s2, s2 <:+ s ∧ f s2 = true := by
  intro s
  induction s with
  | nil =>
    constructor
    · intro h
      exact ⟨[], List.suffix_rfl, h⟩
    · rintro ⟨s2, hs, hf⟩
      rw [List.suffix_nil] at hs
      subst hs
      exact hf
  | cons c s ih =>
    rw [show likeScan f (c :: s) = (f (c :: s) || likeScan f s) from rfl]
    constructor
    · intro h
      rcases (by simpa using h : f (c :: s) = true ∨ likeScan f s = true)
        with h | h
      · exact ⟨c :: s, List.suffix_rfl, h⟩
      · rcases ih.mp h with ⟨s2, hs, hf⟩
        exact ⟨s2, hs.trans (List.suffix_cons c s), hf⟩
    · rintro ⟨s2, hs, hf⟩
      rcases List.suffix_cons_iff.mp hs with h | h
      · subst h
        simp [hf]
      · simp [ih.mpr ⟨s2, h, hf⟩]

theorem likeScan_nil_true : ∀ s, likeScan (likeMatch []) s = true := by
  intro s
  induction s with
  | nil => rfl
  | cons c s ih =>
    rw [show likeScan (likeMatch []) (c :: s)
        = (likeMatch [] (c :: s) || likeScan (likeMatch []) s) from rfl]
    rw [ih]
    simp

theorem likeMatch_isPrefixOf {p : List Char} (hp : noWild p = true) :
    ∀ s, likeMatch (p ++ ['%']) s = true ↔ p <+: s := by
  induction p with
  | nil =>
    intro s
    rw [List.nil_append]
    constructor
    · intro _
      exact List.nil_prefix
    · intro _
      show likeScan (likeMatch []) s = true
      exact likeScan_nil_true s
  | cons c p ih =>
    intro s
    have hs := List.all_eq_true.mp hp c (List.mem_cons_self c p)
    have hc1 : ¬ c = '%' := by intro he; subst he; simp at hs
    have hc2 : ¬ c = '_' := by intro he; subst he; simp at hs
    have hptl : noWild p = true := by
      apply List.all_eq_true.mpr
      intro d hd
      exact List.all_eq_true.mp hp d (List.mem_cons_of_mem c hd)
    cases s with
    | nil =>
      rw [show likeMatch ((c :: p) ++ ['%']) []
          = (if c = '%' then likeScan (likeMatch (p ++ ['%'])) [] else false)
          from rfl]
      rw [if_neg hc1]
      constructor
      · intro h
        exact absurd h (by simp)
      · intro h
        rw [List.prefix_nil] at h
        exact absurd h (by simp)
    | cons d s2 =>
      rw [show likeMatch ((c :: p) ++ ['%']) (d :: s2)
          = (if c = '%' then likeScan (likeMatch (p ++ ['%'])) (d :: s2)
             else if c = '_' then likeMatch (p ++ ['%']) s2
             else c == d && likeMatch (p ++ ['%']) s2) from rfl]
      rw [if_neg hc1, if_neg hc2]
      rw [List.cons_prefix_cons]
      constructor
      · intro h
        have h2 : c = d ∧ likeMatch (p ++ ['%']) s2 = true := by simpa using h
        exact ⟨h2.1, (ih hptl s2).mp h2.2⟩
      · rintro ⟨h1, h2⟩
        simp [h1, (ih hptl s2).mpr h2]

theorem likeMatch_isInfixOf {mid : List Char} (hm : noWild mid = true) (s : List Char) :
    likeMatch ('%' :: (mid ++ ['%'])) s = true ↔ mid <:+: s := by
  rw [show likeMatch ('%' :: (mid ++ ['%'])) s
      = likeScan (likeMatch (mid ++ ['%'])) s from rfl]
  rw [likeScan_iff]
  constructor
  · rintro ⟨s2, hsuf, hf⟩
    exact List.infix_iff_prefix_suffix.mpr
      ⟨s2, (likeMatch_isPrefixOf hm s2).mp hf, hsuf⟩
  · intro h
    rcases List.infix_iff_prefix_suffix.mp h with ⟨t, hpre, hsuf⟩
    exact ⟨t, hsuf, (likeMatch_isPrefixOf hm t).mpr hpre⟩

/-- Two quote-free prefixes ending at a quote coincide. -/
theorem quote_free_align {a : List Char} (ha : '"' ∉ a) :
    ∀ {x u v : List Char}, '"' ∉ x →
    a ++ '"' :: u = x ++ '"' :: v → a = x ∧ u = v := by
  induction a with
  | nil =>
    intro x u v hx h
    cases x with
    | nil =>
      rw [List.nil_append, List.nil_append] at h
      injection h with _ h2
      exact ⟨rfl, h2⟩
    | cons d x2 =>
      rw [List.nil_append] at h
      injection h with h1 h2
      subst h1
      exact absurd (List.mem_cons_self _ _) hx
  | cons c a2 ih =>
    intro x u v hx h
    cases x with
    | nil =>
      rw [List.nil_append] at h
      injection h with h1 h2
      subst h1
      exact absurd (List.mem_cons_self _ _) ha
    | cons d x2 =>
      injection h with h1 h2
      subst h1
      have := ih (fun hm => ha (List.mem_cons_of_mem _ hm))
        (fun hm => hx (List.mem_cons_of_mem _ hm)) h2
      exact ⟨by rw [this.1], this.2⟩

/-- Locating the first quote after a prefix inside a quote-free element
followed by a quote: the prefix either stops exactly at the element's
closing quote or runs past it. -/
theorem quote_scan : ∀ (x : List Char), '"' ∉ x →
    ∀ (s u R : List Char), s ++ '"' :: u = x ++ '"' :: R →
      (s = x ∧ u = R) ∨ ∃ s2, s = x ++ '"' :: s2 ∧ s2 ++ '"' :: u = R := by
  intro x
  induction x with
  | nil =>
    intro _ s u R h
    rw [List.nil_append] at h
    cases s with
    | nil =>
      rw [List.nil_append] at h
      injection h with _ h2
      exact Or.inl ⟨rfl, h2⟩
    | cons c s2 =>
      injection h with h1 h2
      subst h1
      exact Or.inr ⟨s2, by rw [List.nil_append], h2⟩
  | cons d x2 ih =>
    intro hx s u R h
    cases s with
    | nil =>
      rw [List.nil_append] at h
      injection h with h1 h2
      subst h1
      exact absurd (List.mem_cons_self _ _) hx
    | cons c s2 =>
      injection h with h1 h2
      subst h1
      rcases ih (fun hm => hx (List.mem_cons_of_mem _ hm)) s2 u R h2 with
        ⟨he, hu⟩ | ⟨s3, hs3, hR⟩
      · exact Or.inl ⟨by rw [he], hu⟩
      · exact Or.inr ⟨s3, by rw [hs3]; rfl, hR⟩

theorem renderBody_cons_head (y : List Char) (ds : List (List Char)) :
    ∃ z, renderBody (y :: ds) = '"' :: z := by
  cases ds with
  | nil => exact ⟨_, rfl⟩
  | cons w ds2 => exact ⟨_, rfl⟩

/-- Core occurrence analysis: inside the rendered body of a jsonb array
of clean strings, a quoted quote-free string occurs only as one of the
elements or as the separator fragment between two elements. -/
theorem renderBody_infix_mem {a : List Char} (ha : '"' ∉ a) :
    ∀ (ds : List (List Char)), (∀ x ∈ ds, cleanChars x = true) →
    ∀ s t, s ++ '"' :: (a ++ '"' :: t) = renderBody ds →
    a = [',', ' '] ∨ a ∈ ds := by
  intro ds
  induction ds with
  | nil =>
    intro _ s t h
    rw [show renderBody [] = [] from rfl] at h
    exact absurd (List.append_eq_nil.mp h).2 (by simp)
  | cons x ds2 ih =>
    intro hcl s t h
    have hx : cleanChars x = true := hcl x (List.mem_cons_self _ _)
    have hxq : '"' ∉ x := fun hm => (cleanChars_spec hx '"' hm).1 rfl
    cases ds2 with
    | nil =>
      rw [show renderBody [x] = jsonQuoteChars x from rfl,
        jsonQuoteChars_clean hx] at h
      rw [show ('"' :: x ++ ['"'] : List Char) = '"' :: (x ++ '"' :: []) from by
        simp] at h
      cases s with
      | nil =>
        rw [List.nil_append] at h
        injection h with _ h2
        have := quote_free_align ha hxq h2
        exact Or.inr (by rw [this.1]; exact List.mem_cons_self _ _)
      | cons c s2 =>
        injection h with h1 h2
        rcases quote_scan x hxq s2 (a ++ '"' :: t) [] h2 with ⟨_, hu⟩ | ⟨s3, _, hR⟩
        · exact absurd hu (by simp)
        · exact absurd hR (by simp)
    | cons y ds3 =>
      rw [show renderBody (x :: y :: ds3)
          = jsonQuoteChars x ++ ',' :: ' ' :: renderBody (y :: ds3) from rfl,
        jsonQuoteChars_clean hx] at h
      rw [show (('"' :: x ++ ['"']) ++ ',' :: ' ' :: renderBody (y :: ds3) : List Char)
          = '"' :: (x ++ '"' :: ',' :: ' ' :: renderBody (y :: ds3)) from by
        simp] at h
      cases s with
      | nil =>
        rw [List.nil_append] at h
        injection h with _ h2
        have := quote_free_align ha hxq h2
        exact Or.inr (by rw [this.1]; exact List.mem_cons_self _ _)
      | cons c s2 =>
        injection h with h1 h2
        rcases quote_scan x hxq s2 (a ++ '"' :: t)
            (',' :: ' ' :: renderBody (y :: ds3)) h2 with ⟨_, hu⟩ | ⟨s3, _, hR⟩
        · cases a with
          | nil =>
            injection hu with hu1 _
            exact absurd hu1 (by decide)
          | cons c1 a1 =>
            injection hu with hu1 hu2
            subst hu1
            cases a1 with
            | nil =>
              injection hu2 with hu3 _
              exact absurd hu3 (by decide)
            | cons c2 a2 =>
              injection hu2 with hu3 hu4
              subst hu3
              cases a2 with
              | nil => exact Or.inl rfl
              | cons c3 a3 =>
                rcases renderBody_cons_head y ds3 with ⟨z, hz⟩
                rw [hz] at hu4
                injection hu4 with hu5 _
                subst hu5
                exact absurd (List.mem_cons_of_mem _
                  (List.mem_cons_of_mem _ (List.mem_cons_self _ _))) ha
        · cases s3 with
          | nil =>
            injection hR with hR1 _
            exact absurd hR1 (by decide)
          | cons e1 s4 =>
            injection hR with hR1 hR2
            cases s4 with
            | nil =>
              injection hR2 with hR3 _
              exact absurd hR3 (by decide)
            | cons e2 s5 =>
              injection hR2 with hR3 hR4
              exact (ih (fun z hz => hcl z (List.mem_cons_of_mem _ hz)) s5 t
                hR4).imp id (List.mem_cons_of_mem _)

/-- Membership of a clean string in a clean stored list puts its quoted
form inside the rendered body. -/
theorem mem_infix_renderBody {v : List Char} :
    ∀ (ds : List (List Char)), (∀ x ∈ ds, cleanChars x = true) → v ∈ ds →
    ('"' :: v ++ ['"']) <:+: renderBody ds := by
  intro ds
  induction ds with
  | nil =>
    intro _ hm
    exact absurd hm (List.not_mem_nil v)
  | cons x ds2 ih =>
    intro hcl hm
    have hx := hcl x (List.mem_cons_self _ _)
    rcases List.mem_cons.mp hm with he | hm2
    · subst he
      cases ds2 with
      | nil =>
        rw [show renderBody [v] = jsonQuoteChars v from rfl,
          jsonQuoteChars_clean hx]
      | cons y ds3 =>
        rw [show renderBody (v :: y :: ds3)
            = jsonQuoteChars v ++ ',' :: ' ' :: renderBody (y :: ds3) from rfl,
          jsonQuoteChars_clean hx]
        exact ⟨[], ',' :: ' ' :: renderBody (y :: ds3), by simp⟩
    · cases ds2 with
      | nil => exact absurd hm2 (List.not_mem_nil v)
      | cons y ds3 =>
        rcases ih (fun z hz => hcl z (List.mem_cons_of_mem _ hz)) hm2 with
          ⟨s, t, hst⟩
        exact ⟨jsonQuoteChars x ++ ',' :: ' ' :: s, t, by
          rw [show renderBody (x :: y :: ds3)
              = jsonQuoteChars x ++ ',' :: ' ' :: renderBody (y :: ds3) from rfl,
            ← hst]
          simp⟩

/-- The LIKE containment test the source compiles for one value of a
list-typed property filter is exactly list membership, provided the
value and the stored elements avoid JSON-escaped and wildcard
characters and the value is not the element separator. -/
theorem likeList_iff {v : String} {xs : List String}
    (hv : cleanChars v.data = true) (hvne : v.data ≠ [',', ' '])
    (hxs : ∀ x ∈ xs, cleanChars x.data = true) :
    likeMatch (listLikePattern v) (renderJsonList xs).data = true ↔ v ∈ xs := by
  have hqa : '"' ∉ v.data := fun hm => (cleanChars_spec hv '"' hm).1 rfl
  have hmid : noWild ('"' :: v.data ++ ['"']) = true := by
    apply List.all_eq_true.mpr
    intro c hc
    rcases List.mem_cons.mp hc with he | hc
    · subst he
      rfl
    · rcases List.mem_append.mp hc with hc | hc
      · have hs := cleanChars_spec hv c hc
        have h1 : (c == '%') = false := beq_eq_false_iff_ne.mpr hs.2.2.1
        have h2 : (c == '_') = false := beq_eq_false_iff_ne.mpr hs.2.2.2
        rw [h1, h2]
        rfl
      · rw [List.mem_singleton] at hc
        subst hc
        rfl
  have hclds : ∀ z ∈ xs.map String.data, cleanChars z = true := by
    intro z hz
    rcases List.mem_map.mp hz with ⟨w, hw, hwz⟩
    rw [← hwz]
    exact hxs w hw
  have hpat : listLikePattern v = '%' :: (('"' :: v.data ++ ['"']) ++ ['%']) := by
    unfold listLikePattern
    simp
  rw [hpat, likeMatch_isInfixOf hmid]
  rw [show (renderJsonList xs).data
      = '[' :: renderBody (xs.map String.data) ++ [']'] from rfl]
  constructor
  · rintro ⟨s, t, hst⟩
    cases s with
    | nil =>
      rw [List.nil_append] at hst
      injection hst with h1 _
      exact absurd h1 (by decide)
    | cons c s2 =>
      injection hst with h1 hst2
      have hst4 : s2 ++ ('"' :: v.data ++ ['"']) ++ t
          = renderBody (xs.map String.data) ++ [']'] := hst2
      rcases t.eq_nil_or_concat with he | ⟨t2, d, he⟩
      · subst he
        rw [List.append_nil] at hst4
        rw [show s2 ++ ('"' :: v.data ++ ['"'])
            = (s2 ++ '"' :: v.data) ++ ['"'] from by simp] at hst4
        have := congrArg List.getLast? hst4
        rw [List.getLast?_concat, List.getLast?_concat] at this
        exact absurd (Option.some.inj this) (by decide)
      · subst he
        have hst3 : (s2 ++ ('"' :: v.data ++ ['"']) ++ t2) ++ [d]
            = renderBody (xs.map String.data) ++ [']'] := by
          rw [← hst4]
          simp
        have hdrop := congrArg List.dropLast hst3
        rw [List.dropLast_concat, List.dropLast_concat] at hdrop
        have hsh : s2 ++ '"' :: (v.data ++ '"' :: t2)
            = renderBody (xs.map String.data) := by
          rw [← hdrop]
          simp
        rcases renderBody_infix_mem hqa (xs.map String.data) hclds s2 t2 hsh with
          hsep | hmem
        · exact absurd hsep hvne
        · rcases List.mem_map.mp hmem with ⟨w, hw, hwz⟩
          have hwv : w = v := by
            cases w
            cases v
            exact congrArg String.mk hwz
          exact hwv ▸ hw
  · intro hvm
    rcases mem_infix_renderBody (xs.map String.data) hclds
        (List.mem_map.mpr ⟨v, hvm, rfl⟩) with ⟨s, t, hst⟩
    exact ⟨'[' :: s, t ++ [']'], by rw [← hst]; simp⟩

theorem mapM_vstr_pats {f : PyVal → Except PyError (List Char)}
    (hf : ∀ s, f (PyVal.vstr s) = pure (listLikePattern s)) :
    ∀ (svals : List String),
    (svals.map PyVal.vstr).mapM f = pure (svals.map listLikePattern) := by
  intro svals
  induction svals with
  | nil => rfl
  | cons s ss ih =>
    rw [List.map_cons, List.mapM_cons, hf, ih]
    rfl

/-- C3 amended: the property-filter stage compiles a list-typed
property filter to the conjunction of one LIKE containment test per
given value over the jsonb text rendering of the stored list; this
equals ordinary "every given value is an element of the stored list"
semantics only when the values and the stored elements avoid the JSON
quote and backslash and the LIKE percent and underscore characters and
no value equals the rendered element separator (a value such as the
two-character string comma-space matches every stored list with at
least two elements).  A scalar-typed property filter is the claimed
disjunction: the row's rendered value must equal the rendering of one
of the given values, booleans lowercased first. -/
theorem c3_prop_filter_semantics (sch : Schema) (q : Query) (key : String)
    (ft : FieldType)
    (hjc : q.joinClass = q.primary)
    (hfind : (metaOf sch q.joinClass).pgProps.find? (fun p => p.fst == key)
      = some (key, ft)) :
    (∀ (svals : List String) (q2 : Query), ft = FieldType.listT →
      apply_prop_filters sch q [(key, Arg.many (svals.map PyVal.vstr))]
        = .ok q2 →
      (q2 = q.filter (fun c =>
        match q.entityRow c with
        | some r =>
          match r.getProp key with
          | some jv => (svals.map listLikePattern).all
              (fun p => likeMatch p (astext jv).data)
          | none => false
        | none => false))
      ∧ ∀ c ∈ q.rows, ∀ xs, c.base.getProp key = some (JVal.jlist xs) →
          (∀ v ∈ svals, cleanChars v.data = true ∧ v.data ≠ [',', ' ']) →
          (∀ x ∈ xs, cleanChars x.data = true) →
          (c ∈ q2.rows ↔ ∀ v ∈ svals, v ∈ xs))
    ∧ (∀ (vals : List PyVal) (q2 : Query), ft ≠ FieldType.listT →
      apply_prop_filters sch q [(key, Arg.many vals)] = .ok q2 →
      ∀ c ∈ q.rows, ∀ jv, c.base.getProp key = some jv →
        (c ∈ q2.rows ↔ ∃ v ∈ vals,
          (if ft = FieldType.boolT then pyLower (pyStr v) else pyStr v)
            = astext jv)) := by
  have hrow : ∀ c : Ctx, q.entityRow c = some c.base := by
    intro c
    unfold Query.entityRow Ctx.resolveCls
    rw [if_pos hjc]
  constructor
  · intro svals q2 hft hok
    subst hft
    unfold apply_prop_filters at hok
    rw [List.foldlM_cons] at hok
    rcases except_bind_ok.mp hok with ⟨q1, hq1, hok⟩
    rw [List.foldlM_nil, except_pure_ok] at hok
    subst hok
    dsimp only at hq1
    rw [hfind] at hq1
    dsimp only at hq1
    rcases except_bind_ok.mp hq1 with ⟨val, hval, hq1⟩
    have hve : val = svals.map PyVal.vstr := (Except.ok.inj hval).symm
    subst hve
    rw [if_pos rfl] at hq1
    rcases except_bind_ok.mp hq1 with ⟨pats, hpats, hq1⟩
    have hpe : pats = svals.map listLikePattern :=
      (Except.ok.inj ((mapM_vstr_pats (fun _ => rfl) svals).symm.trans
        hpats)).symm
    subst hpe
    rw [except_pure_ok] at hq1
    subst hq1
    refine ⟨rfl, ?_⟩
    intro c hc xs hgp hclv hclx
    simp only [Query.filter, List.mem_filter, hrow, hgp]
    constructor
    · rintro ⟨_, hall⟩
      intro v hv
      have h2 := List.all_eq_true.mp hall (listLikePattern v)
        (List.mem_map.mpr ⟨v, hv, rfl⟩)
      exact (likeList_iff (hclv v hv).1 (hclv v hv).2 hclx).mp h2
    · intro hall
      refine ⟨hc, List.all_eq_true.mpr ?_⟩
      intro p hp
      rcases List.mem_map.mp hp with ⟨v, hv, hvp⟩
      rw [← hvp]
      exact (likeList_iff (hclv v hv).1 (hclv v hv).2 hclx).mpr (hall v hv)
  · intro vals q2 hft hok
    unfold apply_prop_filters at hok
    rw [List.foldlM_cons] at hok
    rcases except_bind_ok.mp hok with ⟨q1, hq1, hok⟩
    rw [List.foldlM_nil, except_pure_ok] at hok
    subst hok
    dsimp only at hq1
    rw [hfind] at hq1
    dsimp only at hq1
    rcases except_bind_ok.mp hq1 with ⟨val, hval, hq1⟩
    cases Except.ok.inj hval
    rw [if_neg hft] at hq1
    rw [except_pure_ok] at hq1
    subst hq1
    intro c hc jv hgp
    simp only [Query.filter, List.mem_filter, hrow, hgp]
    by_cases hb : ft = FieldType.boolT
    · subst hb
      rw [if_pos rfl, List.map_map]
      constructor
      · rintro ⟨_, hcont⟩
        have hm : astext jv ∈ vals.map
            (pyStr ∘ fun v => PyVal.vstr (pyLower (pyStr v))) :=
          List.elem_iff.mp hcont
        rcases List.mem_map.mp hm with ⟨v, hv, hveq⟩
        refine ⟨v, hv, ?_⟩
        rw [if_pos rfl]
        exact hveq
      · rintro ⟨v, hv, hveq⟩
        rw [if_pos rfl] at hveq
        exact ⟨hc, List.elem_iff.mpr (List.mem_map.mpr ⟨v, hv, hveq⟩)⟩
    · rw [if_neg hb]
      constructor
      · rintro ⟨_, hcont⟩
        have hm : astext jv ∈ vals.map pyStr := List.elem_iff.mp hcont
        rcases List.mem_map.mp hm with ⟨v, hv, hveq⟩
        refine ⟨v, hv, ?_⟩
        rw [if_neg hb]
        exact hveq
      · rintro ⟨v, hv, hveq⟩
        rw [if_neg hb] at hveq
        exact ⟨hc, List.elem_iff.mpr (List.mem_map.mpr ⟨v, hv, hveq⟩)⟩

def nC3 : PNode :=
  { node_id := "n3", label := "case",
    props := [("codes", JVal.jlist ["x", "y"])] }

def dbC3 : DB := { nodes := [nC3], edges := [] }

/-- C3 counterexample: filtering the list-typed codes property by the
values comma-space and x returns the stored row even though its list
does not contain the comma-space value: the LIKE containment pattern
matches the separator between two rendered elements, so the result is
not restricted to supersets of the given value set. -/
theorem c3_counterexample :
    (apply_prop_filters schCase (dbNodes dbC3 (PyClass.cls "case"))
        [("codes", Arg.many [PyVal.vstr ", ", PyVal.vstr "x"])]).map Query.exec
      = .ok [nC3]
    ∧ nC3.getProp "codes" = some (JVal.jlist ["x", "y"])
    ∧ ", " ∉ (["x", "y"] : List String) :=
  ⟨rfl, rfl, by decide⟩

/-- C3 amended applied at a concrete query over the case type and its
list-typed codes property. -/
theorem c3_witness :
    ((dbNodes dbC3 (PyClass.cls "case")).joinClass
        = (dbNodes dbC3 (PyClass.cls "case")).primary
      ∧ (metaOf schCase (dbNodes dbC3 (PyClass.cls "case")).joinClass).pgProps.find?
          (fun p => p.fst == "codes") = some ("codes", FieldType.listT))
    ∧ ((∀ (svals : List String) (q2 : Query),
        FieldType.listT = FieldType.listT →
        apply_prop_filters schCase (dbNodes dbC3 (PyClass.cls "case"))
            [("codes", Arg.many (svals.map PyVal.vstr))] = .ok q2 →
        (q2 = (dbNodes dbC3 (PyClass.cls "case")).filter (fun c =>
          match (dbNodes dbC3 (PyClass.cls "case")).entityRow c with
          | some r =>
            match r.getProp "codes" with
            | some jv => (svals.map listLikePattern).all
                (fun p => likeMatch p (astext jv).data)
            | none => false
          | none => false))
        ∧ ∀ c ∈ (dbNodes dbC3 (PyClass.cls "case")).rows, ∀ xs,
            c.base.getProp "codes" = some (JVal.jlist xs) →
            (∀ v ∈ svals, cleanChars v.data = true ∧ v.data ≠ [',', ' ']) →
            (∀ x ∈ xs, cleanChars x.data = true) →
            (c ∈ q2.rows ↔ ∀ v ∈ svals, v ∈ xs))
      ∧ (∀ (vals : List PyVal) (q2 : Query),
        FieldType.listT ≠ FieldType.listT →
        apply_prop_filters schCase (dbNodes dbC3 (PyClass.cls "case"))
            [("codes", Arg.many vals)] = .ok q2 →
        ∀ c ∈ (dbNodes dbC3 (PyClass.cls "case")).rows, ∀ jv,
          c.base.getProp "codes" = some jv →
          (c ∈ q2.rows ↔ ∃ v ∈ vals,
            (if FieldType.listT = FieldType.boolT
              then pyLower (pyStr v) else pyStr v) = astext jv))) :=
  ⟨⟨rfl, rfl⟩,
    c3_prop_filter_semantics schCase (dbNodes dbC3 (PyClass.cls "case"))
      "codes" FieldType.listT rfl rfl⟩

end Peregrine
